import Mathlib

/-!
Verification of `bootstrap/bpdoc/properties.go` (package `bpdoc`).

The Go source is shallowly embedded: Go structs become Lean structures or
inductives, Go slices become Lean lists, fallible operations return
`Option`/`Except`, and a `panic` is modelled as `Option.none`.  Go `string`
is modelled as Lean `String` (a sequence of runes); string helpers from the
Go standard library (`strings.Split`, `strings.HasPrefix`,
`template.HTMLEscapeString`, ...) are embedded as small executable Lean
functions with the library's documented semantics.
-/

namespace Bpdoc

/-- Modelled from the spec: the `Property` struct (declared in `bpdoc.go`,
which is not part of the provided sources).  Spec section 3 lists its fields:
`Name`, `OtherNames`, `Type`, `Tag`, `Text`, `OtherTexts`, `Properties`,
`Default`, `Anonymous`; every one of these fields is also used by
`properties.go` itself.  `Type` is renamed `Ty` because `Type` is a Lean
keyword; `Tag` (Go `reflect.StructTag`) and `Text` (Go `template.HTML`) are
strings. -/
inductive Property : Type where
  | mk (Name : String) (OtherNames : List String) (Ty : String) (Tag : String)
       (Text : String) (OtherTexts : List String) (Properties : List Property)
       (Default : String) (Anonymous : Bool) : Property


def Property.Name : Property → String
  | .mk n _ _ _ _ _ _ _ _ => n

def Property.OtherNames : Property → List String
  | .mk _ onm _ _ _ _ _ _ _ => onm

def Property.Ty : Property → String
  | .mk _ _ ty _ _ _ _ _ _ => ty

def Property.Tag : Property → String
  | .mk _ _ _ tg _ _ _ _ _ => tg

def Property.Text : Property → String
  | .mk _ _ _ _ tx _ _ _ _ => tx

def Property.OtherTexts : Property → List String
  | .mk _ _ _ _ _ ot _ _ _ => ot

def Property.Properties : Property → List Property
  | .mk _ _ _ _ _ _ ps _ _ => ps

def Property.Default : Property → String
  | .mk _ _ _ _ _ _ _ d _ => d

def Property.Anonymous : Property → Bool
  | .mk _ _ _ _ _ _ _ _ a => a

/-- Replace the `Properties` field, keeping all other fields
(Go: assignment `x.Properties = ...`). -/
def Property.withProperties : Property → List Property → Property
  | .mk n onm ty tg tx ot _ d a, ps => .mk n onm ty tg tx ot ps d a

/-- Replace the `Default` field, keeping all other fields
(Go: assignment `prop.Default = ...`). -/
def Property.withDefault : Property → String → Property
  | .mk n onm ty tg tx ot ps _ a, d => .mk n onm ty tg tx ot ps d a

/-- Modelled from the spec: the `PropertyStruct` struct (declared in
`bpdoc.go`): `Name`, `Text`, and the ordered `Properties`. -/
structure PropertyStruct : Type where
  Name : String
  Text : String
  Properties : List Property


/-- Go `stringArrayEqual` (properties.go:100-112): equal lengths and equal
elements pairwise. -/
def stringArrayEqual : List String → List String → Bool
  | [], [] => true
  | a :: as, b :: bs => a == b && stringArrayEqual as bs
  | _, _ => false

/-- Go `htmlArrayEqual` (properties.go:114-126): same as `stringArrayEqual`
over `template.HTML` (strings in this embedding). -/
def htmlArrayEqual : List String → List String → Bool
  | [], [] => true
  | a :: as, b :: bs => a == b && htmlArrayEqual as bs
  | _, _ => false

mutual
/-- Go `Property.Equal` (properties.go:56-62).  Compares `Name`, `Type`,
`Tag`, `Text`, `Default`, `OtherNames`, `OtherTexts` and the sub-properties.
Note: the Go code does not compare `Anonymous`. -/
def Property.Equal : Property → Property → Bool
  | .mk n onm ty tg tx ot ps d _, .mk n' onm' ty' tg' tx' ot' ps' d' _ =>
    n == n' && ty == ty' && tg == tg' && tx == tx' && d == d' &&
    stringArrayEqual onm onm' && htmlArrayEqual ot ot' && sameSubProperties ps ps'

/-- Go `Property.SameSubProperties` (properties.go:128-140): equal lengths and
recursively `Equal` element by element. -/
def sameSubProperties : List Property → List Property → Bool
  | [], [] => true
  | p :: ps, q :: qs => p.Equal q && sameSubProperties ps qs
  | _, _ => false
end

/-- Go `nestUnique` (properties.go:151-167): start from `src`; append each
element of `target` that is not `Equal` to any element of the accumulator so
far.  The Go loop checks `elem.Equal(retElement)` against the growing `ret`;
here the growing accumulator is the first argument. -/
def nestUnique (src : List Property) : List Property → List Property
  | [] => src
  | e :: t =>
    if src.any (fun r => e.Equal r) then nestUnique src t
    else nestUnique (src ++ [e]) t

/-- Go `PropertyStruct.Nest` (properties.go:146-148). -/
def PropertyStruct.Nest (ps nested : PropertyStruct) : PropertyStruct :=
  { ps with Properties := nestUnique ps.Properties nested.Properties }

/-- Go `Property.Nest` (properties.go:180-182). -/
def Property.Nest (p : Property) (nested : PropertyStruct) : Property :=
  p.withProperties (nestUnique p.Properties nested.Properties)

/-- Go `Property.SetAnonymous` (properties.go:184-186). -/
def Property.SetAnonymous : Property → Property
  | .mk n onm ty tg tx ot ps d _ => .mk n onm ty tg tx ot ps d true

/-! ### Basic lemmas about `Equal` -/

theorem stringArrayEqual_refl (a : List String) : stringArrayEqual a a = true := by
  induction a with
  | nil => rfl
  | cons x xs ih => simp [stringArrayEqual, ih]

theorem stringArrayEqual_comm (a b : List String) :
    stringArrayEqual a b = stringArrayEqual b a := by
  induction a generalizing b with
  | nil => cases b <;> rfl
  | cons x xs ih =>
    cases b with
    | nil => rfl
    | cons y ys => simp [stringArrayEqual, ih ys, BEq.comm]

theorem stringArrayEqual_eq {a b : List String} (h : stringArrayEqual a b = true) :
    a = b := by
  induction a generalizing b with
  | nil => cases b with
    | nil => rfl
    | cons y ys => simp [stringArrayEqual] at h
  | cons x xs ih =>
    cases b with
    | nil => simp [stringArrayEqual] at h
    | cons y ys =>
      simp [stringArrayEqual] at h
      exact congrArg₂ _ h.1 (ih h.2)

theorem htmlArrayEqual_refl (a : List String) : htmlArrayEqual a a = true := by
  induction a with
  | nil => rfl
  | cons x xs ih => simp [htmlArrayEqual, ih]

theorem htmlArrayEqual_comm (a b : List String) :
    htmlArrayEqual a b = htmlArrayEqual b a := by
  induction a generalizing b with
  | nil => cases b <;> rfl
  | cons x xs ih =>
    cases b with
    | nil => rfl
    | cons y ys => simp [htmlArrayEqual, ih ys, BEq.comm]

theorem htmlArrayEqual_eq {a b : List String} (h : htmlArrayEqual a b = true) :
    a = b := by
  induction a generalizing b with
  | nil => cases b with
    | nil => rfl
    | cons y ys => simp [htmlArrayEqual] at h
  | cons x xs ih =>
    cases b with
    | nil => simp [htmlArrayEqual] at h
    | cons y ys =>
      simp [htmlArrayEqual] at h
      exact congrArg₂ _ h.1 (ih h.2)

mutual
theorem Property.equal_refl : (p : Property) → p.Equal p = true
  | .mk n onm ty tg tx ot ps d a => by
    simp [Property.Equal, stringArrayEqual_refl, htmlArrayEqual_refl, sameSub_refl ps]

theorem sameSub_refl : (ps : List Property) → sameSubProperties ps ps = true
  | [] => rfl
  | p :: ps => by simp [sameSubProperties, Property.equal_refl p, sameSub_refl ps]
end

mutual
theorem Property.equal_comm : (p q : Property) → p.Equal q = q.Equal p
  | .mk n onm ty tg tx ot ps d a, .mk n' onm' ty' tg' tx' ot' ps' d' a' => by
    simp only [Property.Equal]
    rw [stringArrayEqual_comm onm onm', htmlArrayEqual_comm ot ot', sameSub_comm ps ps',
       BEq.comm (a := n), BEq.comm (a := ty), BEq.comm (a := tg), BEq.comm (a := tx),
       BEq.comm (a := d)]

theorem sameSub_comm : (ps qs : List Property) → sameSubProperties ps qs = sameSubProperties qs ps
  | [], [] => rfl
  | [], _ :: _ => rfl
  | _ :: _, [] => rfl
  | p :: ps, q :: qs => by
    simp only [sameSubProperties]
    rw [Property.equal_comm p q, sameSub_comm ps qs]
end

/-! ### Lemmas about `nestUnique` (merge-dedup) -/

/-- `nestUnique` keeps `src` unchanged as a prefix and appends a subsequence of
`target` none of whose elements is `Equal` to an element of `src`. -/
theorem nestUnique_structure : ∀ (target src : List Property),
    ∃ rest, nestUnique src target = src ++ rest ∧ rest.Sublist target ∧
      ∀ x ∈ rest, ∀ y ∈ src, x.Equal y = false := by
  intro target
  induction target with
  | nil => exact fun src => ⟨[], by simp [nestUnique], List.Sublist.refl _, by simp⟩
  | cons e t ih =>
    intro src
    by_cases h : src.any (fun r => e.Equal r) = true
    · obtain ⟨rest, h1, h2, h3⟩ := ih src
      exact ⟨rest, by simp [nestUnique, h, h1], h2.cons _, h3⟩
    · obtain ⟨rest, h1, h2, h3⟩ := ih (src ++ [e])
      refine ⟨e :: rest, ?_, h2.cons₂ _, ?_⟩
      · rw [nestUnique, if_neg h, h1]; simp
      · intro x hx y hy
        rcases List.mem_cons.mp hx with hx | hx
        · subst hx
          simp only [List.any_eq_true, not_exists, not_and] at h
          exact Bool.not_eq_true _ ▸ fun hc => h y hy hc
        · exact h3 x hx y (List.mem_append_left _ hy)

/-- `nestUnique` preserves absence of duplicates. -/
theorem nestUnique_pairwise : ∀ (target src : List Property),
    src.Pairwise (fun a b => a.Equal b = false) →
    (nestUnique src target).Pairwise (fun a b => a.Equal b = false) := by
  intro target
  induction target with
  | nil => intro src h; simpa [nestUnique] using h
  | cons e t ih =>
    intro src hsrc
    by_cases h : src.any (fun r => e.Equal r) = true
    · rw [nestUnique, if_pos h]; exact ih src hsrc
    · rw [nestUnique, if_neg h]
      refine ih (src ++ [e]) ?_
      rw [List.pairwise_append]
      refine ⟨hsrc, List.pairwise_singleton _ _, ?_⟩
      intro a ha b hb
      rw [List.mem_singleton] at hb
      subst hb
      simp only [List.any_eq_true, not_exists, not_and] at h
      rw [Property.equal_comm]
      exact Bool.not_eq_true _ ▸ fun hc => h a ha hc

/-- Every element of `target` is `Equal` to some element of the merge result
(elements are dropped only when a duplicate is already present). -/
theorem nestUnique_covers : ∀ (target src : List Property),
    ∀ e ∈ target, ∃ r ∈ nestUnique src target, e.Equal r = true := by
  intro target
  induction target with
  | nil => intro src e he; cases he
  | cons x t ih =>
    intro src e he
    by_cases h : src.any (fun r => x.Equal r) = true
    · rw [nestUnique, if_pos h]
      rcases List.mem_cons.mp he with he | he
      · subst he
        obtain ⟨r, hr, hxr⟩ := List.any_eq_true.mp h
        obtain ⟨rest, h1, -, -⟩ := nestUnique_structure t src
        exact ⟨r, h1 ▸ List.mem_append_left _ hr, hxr⟩
      · exact ih src e he
    · rw [nestUnique, if_neg h]
      rcases List.mem_cons.mp he with he | he
      · subst he
        obtain ⟨rest, h1, -, -⟩ := nestUnique_structure t (src ++ [e])
        refine ⟨e, h1 ▸ List.mem_append_left _ ?_, Property.equal_refl e⟩
        exact List.mem_append_right _ (List.mem_singleton.mpr rfl)
      · exact ih (src ++ [x]) e he

/-- If every element of `target` already has an `Equal` counterpart in `src`,
the merge adds nothing. -/
theorem nestUnique_noop : ∀ (target src : List Property),
    (∀ e ∈ target, ∃ r ∈ src, e.Equal r = true) → nestUnique src target = src := by
  intro target
  induction target with
  | nil => intro src _; rfl
  | cons e t ih =>
    intro src hcov
    have hany : src.any (fun r => e.Equal r) = true := by
      obtain ⟨r, hr, hre⟩ := hcov e (List.mem_cons_self _ _)
      exact List.any_eq_true.mpr ⟨r, hr, hre⟩
    rw [nestUnique, if_pos hany]
    exact ih src fun x hx => hcov x (List.mem_cons_of_mem _ hx)

/-- Merging the same `target` a second time is a no-op, with no hypothesis on
`src`. -/
theorem nestUnique_idem (src target : List Property) :
    nestUnique (nestUnique src target) target = nestUnique src target :=
  nestUnique_noop target _ (nestUnique_covers target src)

/-- A bare concrete property (all fields empty except the name), used for
concrete counterexamples and witnesses. -/
def pEx (name : String) : Property := .mk name [] "" "" "" [] [] "" false

/-- C2: after `A.Nest(B)`, `A.Properties` is A's original nodes unchanged and
in order, followed by a subsequence of B's nodes none of which is `Equal` to a
node of A; every node of B is `Equal` to some node of the result; when A's
original nodes are pairwise non-`Equal` the result contains no two `Equal`
nodes; and nesting the same B a second time is a no-op.  (The
duplicate-freedom conjunct needs the added hypothesis `hA`: the code keeps
duplicates already present in A — see the counterexample.) -/
theorem nest_spec (A B : PropertyStruct)
    (hA : A.Properties.Pairwise (fun a b => a.Equal b = false)) :
    (∃ rest, (A.Nest B).Properties = A.Properties ++ rest ∧
       rest.Sublist B.Properties ∧
       ∀ x ∈ rest, ∀ y ∈ A.Properties, x.Equal y = false) ∧
    (∀ e ∈ B.Properties, ∃ r ∈ (A.Nest B).Properties, e.Equal r = true) ∧
    (A.Nest B).Properties.Pairwise (fun a b => a.Equal b = false) ∧
    (A.Nest B).Nest B = A.Nest B := by
  refine ⟨nestUnique_structure B.Properties A.Properties,
          nestUnique_covers B.Properties A.Properties,
          nestUnique_pairwise B.Properties A.Properties hA, ?_⟩
  simp only [PropertyStruct.Nest]
  rw [nestUnique_idem]

/-- C2 witness: `nest_spec` applied at a concrete pair of trees. -/
theorem nest_spec_witness :
    (PropertyStruct.mk "A" "" [pEx "a"]).Properties.Pairwise
        (fun a b => a.Equal b = false) ∧
    ((PropertyStruct.mk "A" "" [pEx "a"]).Nest
        (PropertyStruct.mk "B" "" [pEx "a", pEx "b"])).Nest
        (PropertyStruct.mk "B" "" [pEx "a", pEx "b"]) =
      (PropertyStruct.mk "A" "" [pEx "a"]).Nest
        (PropertyStruct.mk "B" "" [pEx "a", pEx "b"]) :=
  ⟨List.pairwise_singleton _ _,
   (nest_spec (PropertyStruct.mk "A" "" [pEx "a"])
      (PropertyStruct.mk "B" "" [pEx "a", pEx "b"])
      (List.pairwise_singleton _ _)).2.2.2⟩

/-- C2 counterexample: when A itself contains two `Equal` nodes, the result of
`A.Nest(B)` still contains two `Equal` nodes, contradicting the claim's
"the result never contains two Equal nodes". -/
theorem nest_duplicates_counterexample :
    ¬ ((PropertyStruct.mk "A" "" [pEx "a", pEx "a"]).Nest
        (PropertyStruct.mk "B" "" [])).Properties.Pairwise
        (fun a b => a.Equal b = false) := by
  intro h
  simp only [PropertyStruct.Nest, nestUnique, List.pairwise_cons] at h
  have := h.1 (pEx "a") (List.mem_singleton.mpr rfl)
  rw [Property.equal_refl] at this
  cases this

/-! ### C4: what `Equal` compares -/

theorem sameSub_forall₂ : ∀ (ps qs : List Property), sameSubProperties ps qs = true →
    List.Forall₂ (fun x y => x.Equal y = true) ps qs
  | [], [], _ => List.Forall₂.nil
  | [], _ :: _, h => by simp [sameSubProperties] at h
  | _ :: _, [], h => by simp [sameSubProperties] at h
  | p :: ps, q :: qs, h => by
    simp only [sameSubProperties, Bool.and_eq_true] at h
    exact List.Forall₂.cons h.1 (sameSub_forall₂ ps qs h.2)

/-- C4 (amended): `Equal(a, b)` holds only if `Name`, `Type`, `Tag`, `Text`,
`Default`, `OtherNames` and `OtherTexts` agree and the `Properties` subtrees
are recursively `Equal` element by element in order.  The `Anonymous` flag is
not compared (see the counterexample). -/
theorem equal_spec (a b : Property) (h : a.Equal b = true) :
    a.Name = b.Name ∧ a.Ty = b.Ty ∧ a.Tag = b.Tag ∧ a.Text = b.Text ∧
    a.Default = b.Default ∧ a.OtherNames = b.OtherNames ∧
    a.OtherTexts = b.OtherTexts ∧
    List.Forall₂ (fun x y => x.Equal y = true) a.Properties b.Properties := by
  cases a with
  | mk n onm ty tg tx ot ps d an =>
    cases b with
    | mk n' onm' ty' tg' tx' ot' ps' d' an' =>
      simp only [Property.Equal, Bool.and_eq_true, beq_iff_eq] at h
      obtain ⟨⟨⟨⟨⟨⟨⟨h1, h2⟩, h3⟩, h4⟩, h5⟩, h6⟩, h7⟩, h8⟩ := h
      exact ⟨h1, h2, h3, h4, h5, stringArrayEqual_eq h6, htmlArrayEqual_eq h7,
             sameSub_forall₂ ps ps' h8⟩

/-- C4 witness: `equal_spec` applied at a concrete pair. -/
theorem equal_spec_witness :
    (pEx "a").Equal (pEx "a") = true ∧ (pEx "a").Name = (pEx "a").Name :=
  ⟨rfl, (equal_spec (pEx "a") (pEx "a") rfl).1⟩

/-- C4 counterexample: two properties that differ exactly in the `Anonymous`
flag are nevertheless `Equal`, so equality of every scalar field (including
`Anonymous`) is not necessary for `Equal`. -/
theorem equal_ignores_anonymous_counterexample :
    (Property.mk "n" [] "t" "" "" [] [] "" false).Equal
      (Property.mk "n" [] "t" "" "" [] [] "" true) = true ∧
    (Property.mk "n" [] "t" "" "" [] [] "" false).Anonymous ≠
      (Property.mk "n" [] "t" "" "" [] [] "" true).Anonymous :=
  ⟨rfl, by simp [Property.Anonymous]⟩

/-! ### Tags and tag-based filtering -/

/-- Go `strings.Split(s, sep)` for a one-rune separator, on rune lists: splits
around every occurrence of `c`; the empty input yields `[[]]`, as in Go. -/
def splitOnChar (c : Char) : List Char → List (List Char)
  | [] => [[]]
  | x :: xs =>
    if x == c then [] :: splitOnChar c xs
    else
      match splitOnChar c xs with
      | l :: ls => (x :: l) :: ls
      | [] => [[x]]

/-- Go `strings.Split` for a one-rune separator, on strings. -/
def goSplit (c : Char) (s : String) : List String :=
  (splitOnChar c s.data).map (fun l => ⟨l⟩)

/-- Modelled from the spec: one `key:"value"` entry of a `reflect.StructTag`
(`reflect.StructTag.Get` is Go standard library code, not part of this
repository).  Returns the key and the unquoted value for a well-formed
entry. -/
def parseTagEntry (entry : List Char) : Option (String × String) :=
  match splitOnChar ':' entry with
  | [k, v] =>
    match v with
    | '"' :: rest =>
      if rest.getLast? == some '"' then some (⟨k⟩, ⟨rest.dropLast⟩) else none
    | _ => none
  | _ => none

/-- Modelled from the spec: `reflect.StructTag.Lookup` — the value of the
first `key:"value"` entry for `key`, or `none` when the tag has no entry for
`key`.  The spec describes `Tag` as "queried as a comma-separated multi-value
map (`key` → list of tokens)". -/
def tagLookup (tag key : String) : Option String :=
  ((splitOnChar ' ' tag.data).filterMap parseTagEntry).lookup key

/-- Modelled from the spec: `reflect.StructTag.Get` — like `tagLookup` but
returning the empty string when the key is absent. -/
def tagGet (tag key : String) : String := (tagLookup tag key).getD ""

/-- Go `hasTag` (properties.go:333-340): split the tag's value for `key` on
commas and test whether any entry equals `value`. -/
def hasTag (tag key value : String) : Bool :=
  (goSplit ',' (tagGet tag key)).any (fun entry => entry == value)

/-- Go `filterPropsByTag` (properties.go:319-331): keep a node iff
`hasTag(x.Tag, key, value) == !exclude`, recursing into the kept node's
sub-properties; in-place slice reuse in Go is pure subsequence selection
here. -/
def filterPropsByTag (key value : String) (exclude : Bool) :
    List Property → List Property
  | [] => []
  | .mk n onm ty tg tx ot ps d a :: xs =>
    if hasTag tg key value = !exclude then
      .mk n onm ty tg tx ot (filterPropsByTag key value exclude ps) d a ::
        filterPropsByTag key value exclude xs
    else filterPropsByTag key value exclude xs

/-- Go `PropertyStruct.ExcludeByTag` (properties.go:311-313). -/
def PropertyStruct.ExcludeByTag (ps : PropertyStruct) (key value : String) :
    PropertyStruct :=
  { ps with Properties := filterPropsByTag key value true ps.Properties }

/-- Go `PropertyStruct.IncludeByTag` (properties.go:315-317). -/
def PropertyStruct.IncludeByTag (ps : PropertyStruct) (key value : String) :
    PropertyStruct :=
  { ps with Properties := filterPropsByTag key value false ps.Properties }

/-- `P` holds at every node of the forest, recursively. -/
def AllNodes (P : Property → Prop) : List Property → Prop
  | [] => True
  | .mk n onm ty tg tx ot ps d a :: xs =>
    P (.mk n onm ty tg tx ot ps d a) ∧ AllNodes P ps ∧ AllNodes P xs

theorem allNodes_mem {P : Property → Prop} : ∀ {props : List Property},
    AllNodes P props → ∀ x ∈ props, P x := by
  intro props
  induction props with
  | nil => intro _ x hx; cases hx
  | cons p xs ih =>
    cases p with
    | mk n onm ty tg tx ot ps d a =>
      intro h x hx
      simp only [AllNodes] at h
      rcases List.mem_cons.mp hx with hx | hx
      · exact hx ▸ h.1
      · exact ih h.2.2 x hx

/-- Every node surviving `filterPropsByTag` satisfies the keep predicate,
recursively at all depths. -/
theorem filter_all (key value : String) (exclude : Bool) :
    (props : List Property) →
    AllNodes (fun p => hasTag p.Tag key value = !exclude)
      (filterPropsByTag key value exclude props)
  | [] => by simp only [filterPropsByTag, AllNodes]
  | .mk n onm ty tg tx ot ps d a :: xs => by
    by_cases h : hasTag tg key value = !exclude
    · simp only [filterPropsByTag, if_pos h, AllNodes]
      exact ⟨h, filter_all key value exclude ps, filter_all key value exclude xs⟩
    · simp only [filterPropsByTag, if_neg h]
      exact filter_all key value exclude xs

/-- If every top-level node's `hasTag` equals `exclude`, the filter drops
everything. -/
theorem filter_empty (key value : String) (exclude : Bool) :
    ∀ (props : List Property),
    (∀ x ∈ props, hasTag x.Tag key value = exclude) →
    filterPropsByTag key value exclude props = [] := by
  intro props
  induction props with
  | nil => intro _; simp [filterPropsByTag]
  | cons p xs ih =>
    cases p with
    | mk n onm ty tg tx ot ps d a =>
      intro h
      have hp := h _ (List.mem_cons_self _ _)
      simp only [Property.Tag] at hp
      have : ¬ (hasTag tg key value = !exclude) := by
        rw [hp]; cases exclude <;> simp
      simp only [filterPropsByTag, if_neg this]
      exact ih fun x hx => h x (List.mem_cons_of_mem _ hx)

/-- C5: after include-mode filtering every remaining node (recursively) has
`value` under `key` in its tag; after exclude-mode filtering every remaining
node lacks it; applying both filters in sequence (in either order) with the
same key and value yields an empty tree. -/
theorem filterByTag_spec (T : PropertyStruct) (k v : String) :
    AllNodes (fun p => hasTag p.Tag k v = true) (T.IncludeByTag k v).Properties ∧
    AllNodes (fun p => hasTag p.Tag k v = false) (T.ExcludeByTag k v).Properties ∧
    ((T.IncludeByTag k v).ExcludeByTag k v).Properties = [] ∧
    ((T.ExcludeByTag k v).IncludeByTag k v).Properties = [] := by
  refine ⟨filter_all k v false T.Properties, filter_all k v true T.Properties, ?_, ?_⟩
  · exact filter_empty k v true _
      fun x hx => allNodes_mem (filter_all k v false T.Properties) x hx
  · exact filter_empty k v false _
      fun x hx => allNodes_mem (filter_all k v true T.Properties) x hx

/-! ### C9: the empty value matches a missing key -/

/-- C9: when a tag has no entry for key `k`, `hasTag(tag, k, "")` is true
(splitting the empty `Get` result on commas yields one empty entry), so
include-mode filtering with value `""` keeps a node whose tag lacks `k`
(recursing into its children) and exclude-mode filtering removes it. -/
theorem hasTag_empty_value_spec (k : String) (p : Property)
    (rest : List Property) (h : tagLookup p.Tag k = none) :
    hasTag p.Tag k "" = true ∧
    filterPropsByTag k "" false (p :: rest) =
      p.withProperties (filterPropsByTag k "" false p.Properties) ::
        filterPropsByTag k "" false rest ∧
    filterPropsByTag k "" true (p :: rest) = filterPropsByTag k "" true rest := by
  have htag : hasTag p.Tag k "" = true := by
    simp only [hasTag, tagGet, h, Option.getD_none]
    rfl
  cases p with
  | mk n onm ty tg tx ot ps d a =>
    simp only [Property.Tag] at htag
    refine ⟨htag, ?_, ?_⟩
    · simp only [filterPropsByTag, htag, Bool.not_false, if_pos]
      rfl
    · simp only [filterPropsByTag, htag, Bool.not_true]
      rw [if_neg]
      simp

/-- C9 witness: `hasTag_empty_value_spec` at a concrete node with an empty
tag. -/
theorem hasTag_empty_value_witness :
    tagLookup (pEx "x").Tag "key" = none ∧ hasTag (pEx "x").Tag "key" "" = true :=
  ⟨rfl, (hasTag_empty_value_spec "key" (pEx "x") [] rfl).1⟩

/-! ### C6: dotted-path lookup -/

/-- Go `strings.HasPrefix(s, pre)`. -/
def hasPrefixStr (s pre : String) : Bool := pre.data.isPrefixOf s.data

/-- Go `getByName` (properties.go:169-178): scan the forest; on an exact match
of `prefix+Name` return the node; if `prefix+Name+"."` is a prefix of the
sought name, commit to that branch and recurse into its sub-properties;
otherwise try the next sibling. -/
def getByName (name : String) : String → List Property → Option Property
  | _, [] => none
  | pfx, .mk n onm ty tg tx ot ps d a :: rest =>
    if pfx ++ n == name then some (.mk n onm ty tg tx ot ps d a)
    else if hasPrefixStr name (pfx ++ n ++ ".") then
      getByName name (pfx ++ n ++ ".") ps
    else getByName name pfx rest

/-- Go `PropertyStruct.GetByName` (properties.go:142-144). -/
def PropertyStruct.GetByName (T : PropertyStruct) (name : String) :
    Option Property :=
  getByName name "" T.Properties

/-- All fully-qualified dotted paths of the forest: ancestor names joined
with `"."`. -/
def pathsOf : String → List Property → List String
  | _, [] => []
  | pfx, .mk n _ _ _ _ _ ps _ _ :: rest =>
    (pfx ++ n) :: (pathsOf (pfx ++ n ++ ".") ps ++ pathsOf pfx rest)

/-- Specification-side exhaustive lookup: find the first node (in depth-first
declaration order) whose fully-qualified dotted path equals `name`, without
committing to a branch. -/
def nodeAtPath (name : String) : String → List Property → Option Property
  | _, [] => none
  | pfx, .mk n onm ty tg tx ot ps d a :: rest =>
    if pfx ++ n == name then some (.mk n onm ty tg tx ot ps d a)
    else
      match nodeAtPath name (pfx ++ n ++ ".") ps with
      | some q => some q
      | none => nodeAtPath name pfx rest

/-- The name contains no `'.'` rune. -/
def dotFree (s : String) : Bool := !decide (('.' : Char) ∈ s.data)

/-- Every node's name is dot-free and sibling names are pairwise distinct, at
all depths. -/
def goodNames : List Property → Bool
  | [] => true
  | .mk n _ _ _ _ _ ps _ _ :: rest =>
    dotFree n && !(rest.any (fun q => q.Name == n)) &&
      goodNames ps && goodNames rest

theorem goodNames_top : ∀ {props : List Property}, goodNames props = true →
    ∀ q ∈ props, dotFree q.Name = true := by
  intro props
  induction props with
  | nil => intro _ q hq; cases hq
  | cons p rest ih =>
    cases p with
    | mk n onm ty tg tx ot ps d a =>
      intro h q hq
      simp only [goodNames, Bool.and_eq_true] at h
      rcases List.mem_cons.mp hq with hq | hq
      · subst hq; exact h.1.1.1
      · exact ih h.2 q hq

theorem goodNames_distinct : ∀ {props : List Property} {n : String}
    {onm ty tg tx ot ps d a},
    goodNames (.mk n onm ty tg tx ot ps d a :: props) = true →
    ∀ q ∈ props, q.Name ≠ n := by
  intro props n onm ty tg tx ot ps d a h q hq hc
  simp only [goodNames, Bool.and_eq_true] at h
  have h2 := h.1.1.2
  have hany : props.any (fun q => q.Name == n) = true :=
    List.any_eq_true.mpr ⟨q, hq, beq_iff_eq.mpr hc⟩
  rw [hany] at h2
  cases h2

/-- Every path of a forest extends the accumulated ancestor path. -/
theorem pathsOf_extend : ∀ (props : List Property) (pfx name : String),
    name ∈ pathsOf pfx props → pfx.data <+: name.data
  | [], _, _, h => by simp [pathsOf] at h
  | .mk n onm ty tg tx ot ps d a :: rest, pfx, name, h => by
    simp only [pathsOf, List.mem_cons, List.mem_append] at h
    rcases h with h | h | h
    · subst h
      exact ⟨n.data, (String.data_append pfx n).symm⟩
    · have := pathsOf_extend ps (pfx ++ n ++ ".") name h
      refine List.IsPrefix.trans ?_ this
      rw [String.data_append, String.data_append]
      exact ⟨n.data ++ ".".data, by simp⟩
    · exact pathsOf_extend rest pfx name h

/-- A path of the forest either matches a top-level node exactly or descends
through a top-level node's branch. -/
theorem pathsOf_shape : ∀ (props : List Property) (pfx name : String),
    name ∈ pathsOf pfx props →
    ∃ q ∈ props, name = pfx ++ q.Name ∨
      hasPrefixStr name (pfx ++ q.Name ++ ".") = true
  | [], _, _, h => by simp [pathsOf] at h
  | .mk n onm ty tg tx ot ps d a :: rest, pfx, name, h => by
    simp only [pathsOf, List.mem_cons, List.mem_append] at h
    rcases h with h | h | h
    · exact ⟨.mk n onm ty tg tx ot ps d a, List.mem_cons_self _ _, Or.inl h⟩
    · refine ⟨.mk n onm ty tg tx ot ps d a, List.mem_cons_self _ _, Or.inr ?_⟩
      have := pathsOf_extend ps (pfx ++ n ++ ".") name h
      simp only [hasPrefixStr, List.isPrefixOf_iff_prefix]
      exact this
    · obtain ⟨q, hq, hcase⟩ := pathsOf_shape rest pfx name h
      exact ⟨q, List.mem_cons_of_mem _ hq, hcase⟩

/-- `getByName` only returns nodes whose dotted path is the sought name. -/
theorem getByName_mem_paths : ∀ (props : List Property) (pfx name : String)
    (p : Property), getByName name pfx props = some p →
    name ∈ pathsOf pfx props
  | [], _, _, _, h => by simp [getByName] at h
  | .mk n onm ty tg tx ot ps d a :: rest, pfx, name, p, h => by
    simp only [getByName] at h
    by_cases h1 : (pfx ++ n == name) = true
    · rw [if_pos h1] at h
      simp only [pathsOf, List.mem_cons]
      exact Or.inl (beq_iff_eq.mp h1).symm
    · rw [if_neg h1] at h
      by_cases h2 : hasPrefixStr name (pfx ++ n ++ ".") = true
      · rw [if_pos h2] at h
        simp only [pathsOf, List.mem_cons, List.mem_append]
        exact Or.inr (Or.inl (getByName_mem_paths ps _ name p h))
      · rw [if_neg h2] at h
        simp only [pathsOf, List.mem_cons, List.mem_append]
        exact Or.inr (Or.inr (getByName_mem_paths rest pfx name p h))

/-- `nodeAtPath` finds every present path. -/
theorem nodeAtPath_of_mem : ∀ (props : List Property) (pfx name : String),
    name ∈ pathsOf pfx props → nodeAtPath name pfx props ≠ none
  | [], _, _, h => by simp [pathsOf] at h
  | .mk n onm ty tg tx ot ps d a :: rest, pfx, name, h => by
    simp only [pathsOf, List.mem_cons, List.mem_append] at h
    simp only [nodeAtPath]
    by_cases h1 : (pfx ++ n == name) = true
    · rw [if_pos h1]; simp
    · rw [if_neg h1]
      rcases h with h | h | h
      · exact absurd (beq_iff_eq.mpr h.symm) h1
      · have := nodeAtPath_of_mem ps (pfx ++ n ++ ".") name h
        cases hsub : nodeAtPath name (pfx ++ n ++ ".") ps with
        | none => exact absurd hsub this
        | some q => simp
      · cases hsub : nodeAtPath name (pfx ++ n ++ ".") ps with
        | none => exact nodeAtPath_of_mem rest pfx name h
        | some q => simp

/-- `nodeAtPath` only returns nodes at present paths. -/
theorem nodeAtPath_mem_paths : ∀ (props : List Property) (pfx name : String)
    (p : Property), nodeAtPath name pfx props = some p →
    name ∈ pathsOf pfx props
  | [], _, _, _, h => by simp [nodeAtPath] at h
  | .mk n onm ty tg tx ot ps d a :: rest, pfx, name, p, h => by
    simp only [nodeAtPath] at h
    by_cases h1 : (pfx ++ n == name) = true
    · rw [if_pos h1] at h
      simp only [pathsOf, List.mem_cons]
      exact Or.inl (beq_iff_eq.mp h1).symm
    · rw [if_neg h1] at h
      simp only [pathsOf, List.mem_cons, List.mem_append]
      cases hsub : nodeAtPath name (pfx ++ n ++ ".") ps with
      | some q =>
        rw [hsub] at h
        exact Or.inr (Or.inl (nodeAtPath_mem_paths ps _ name q hsub))
      | none =>
        rw [hsub] at h
        exact Or.inr (Or.inr (nodeAtPath_mem_paths rest pfx name p h))

/-- Two dot-free segments closed by a dot that are prefixes of the same list
are equal. -/
theorem dotfree_branch_unique : ∀ (a b r : List Char), '.' ∉ a → '.' ∉ b →
    (b ++ ['.']) <+: (a ++ '.' :: r) → b = a := by
  intro a
  induction a with
  | nil =>
    intro b r _ hb hp
    cases b with
    | nil => rfl
    | cons y ys =>
      rw [List.cons_append, List.nil_append, List.cons_prefix_cons] at hp
      exact absurd (hp.1 ▸ List.mem_cons_self _ _) hb
  | cons x xs ih =>
    intro b r ha hb hp
    cases b with
    | nil =>
      rw [List.nil_append, List.cons_append, List.cons_prefix_cons] at hp
      exact absurd (hp.1 ▸ List.mem_cons_self _ _) ha
    | cons y ys =>
      rw [List.cons_append, List.cons_append, List.cons_prefix_cons] at hp
      have hys := ih ys r (fun hc => ha (List.mem_cons_of_mem _ hc))
        (fun hc => hb (List.mem_cons_of_mem _ hc)) hp.2
      rw [hp.1, hys]

theorem dotFree_not_mem {s : String} (h : dotFree s = true) : '.' ∉ s.data := by
  simp only [dotFree, Bool.not_eq_true', decide_eq_false_iff_not] at h
  exact h

theorem hasPrefixStr_data {s t : String} :
    hasPrefixStr s t = true ↔ t.data <+: s.data := by
  simp [hasPrefixStr, List.isPrefixOf_iff_prefix]

theorem data_append_dot (pfx n : String) :
    (pfx ++ n ++ ".").data = pfx.data ++ n.data ++ ['.'] := by
  rw [String.data_append, String.data_append]

/-- Under dot-free, per-level-distinct names, the committing scan of
`getByName` agrees with exhaustive search. -/
theorem getByName_eq_nodeAtPath : ∀ (props : List Property) (pfx name : String),
    goodNames props = true →
    getByName name pfx props = nodeAtPath name pfx props
  | [], _, _, _ => by simp [getByName, nodeAtPath]
  | .mk n onm ty tg tx ot ps d a :: rest, pfx, name, hg => by
    have hg' := hg
    simp only [goodNames, Bool.and_eq_true] at hg'
    obtain ⟨⟨⟨hdot, -⟩, hps⟩, hrest⟩ := hg'
    simp only [getByName, nodeAtPath]
    by_cases h1 : (pfx ++ n == name) = true
    · rw [if_pos h1, if_pos h1]
    · rw [if_neg h1, if_neg h1]
      by_cases h2 : hasPrefixStr name (pfx ++ n ++ ".") = true
      · rw [if_pos h2, getByName_eq_nodeAtPath ps _ name hps]
        cases hsub : nodeAtPath name (pfx ++ n ++ ".") ps with
        | some q => simp
        | none =>
          cases hrestres : nodeAtPath name pfx rest with
          | none => simp
          | some q =>
            exfalso
            have hmem := nodeAtPath_mem_paths rest pfx name q hrestres
            obtain ⟨q', hq', hcase⟩ := pathsOf_shape rest pfx name hmem
            have hq'dot : '.' ∉ q'.Name.data :=
              dotFree_not_mem (goodNames_top hrest q' hq')
            have hq'ne : q'.Name ≠ n := goodNames_distinct hg q' hq'
            have hndot : '.' ∉ n.data := dotFree_not_mem hdot
            have h2' : pfx.data ++ n.data ++ ['.'] <+: name.data := by
              rw [← data_append_dot]; exact hasPrefixStr_data.mp h2
            rcases hcase with hA | hB
            · -- name = pfx ++ q'.Name and pfx++n++"." is a prefix of name
              have hda : name.data = pfx.data ++ q'.Name.data := by
                rw [hA, String.data_append]
              rw [hda, List.append_assoc] at h2'
              have hcancel : n.data ++ ['.'] <+: q'.Name.data :=
                (List.prefix_append_right_inj _).mp h2'
              exact hq'dot (hcancel.sublist.subset
                (List.mem_append_right _ (List.mem_singleton.mpr rfl)))
            · -- both pfx++n++"." and pfx++q'.Name++"." are prefixes of name
              have hB' : pfx.data ++ q'.Name.data ++ ['.'] <+: name.data := by
                rw [← data_append_dot]; exact hasPrefixStr_data.mp hB
              rw [List.append_assoc] at h2' hB'
              rcases List.prefix_or_prefix_of_prefix h2' hB' with hc | hc
              · have := (List.prefix_append_right_inj _).mp hc
                have heq : n.data = q'.Name.data := by
                  have h0 : q'.Name.data ++ ['.'] = q'.Name.data ++ '.' :: [] := rfl
                  exact dotfree_branch_unique q'.Name.data n.data [] hq'dot hndot
                    (h0 ▸ this)
                exact hq'ne (String.ext heq.symm)
              · have := (List.prefix_append_right_inj _).mp hc
                have heq : q'.Name.data = n.data := by
                  have h0 : n.data ++ ['.'] = n.data ++ '.' :: [] := rfl
                  exact dotfree_branch_unique n.data q'.Name.data [] hndot hq'dot
                    (h0 ▸ this)
                exact hq'ne (String.ext heq)
      · rw [if_neg h2]
        cases hsub : nodeAtPath name (pfx ++ n ++ ".") ps with
        | some q =>
          exfalso
          have hmem := nodeAtPath_mem_paths ps _ name q hsub
          have := pathsOf_extend ps _ name hmem
          exact h2 (hasPrefixStr_data.mpr this)
        | none => exact getByName_eq_nodeAtPath rest pfx name hrest

/-- C6 (amended): any node returned by `GetByName(T, P)` sits at dotted path
P, and a P naming no node returns not-found; moreover when every node name is
dot-free and sibling names are distinct (the amendment forced by the
counterexample), `GetByName` agrees with exhaustive search by dotted path, so
every present path is found. -/
theorem getByName_spec (T : PropertyStruct) (name : String) :
    (name ∉ pathsOf "" T.Properties → T.GetByName name = none) ∧
    (goodNames T.Properties = true →
      T.GetByName name = nodeAtPath name "" T.Properties) ∧
    (name ∈ pathsOf "" T.Properties → nodeAtPath name "" T.Properties ≠ none) := by
  refine ⟨?_, fun hg => getByName_eq_nodeAtPath T.Properties "" name hg,
          nodeAtPath_of_mem T.Properties "" name⟩
  intro habs
  cases hres : T.GetByName name with
  | none => rfl
  | some p =>
    simp only [PropertyStruct.GetByName] at hres
    exact absurd (getByName_mem_paths T.Properties "" name p hres) habs

/-- C6 witness: `getByName_spec` at a concrete two-level tree. -/
theorem getByName_spec_witness :
    goodNames [Property.mk "a" [] "" "" "" [] [pEx "b"] "" false] = true ∧
    (PropertyStruct.mk "T" ""
        [Property.mk "a" [] "" "" "" [] [pEx "b"] "" false]).GetByName "a.b" =
      nodeAtPath "a.b" "" [Property.mk "a" [] "" "" "" [] [pEx "b"] "" false] :=
  ⟨by simp [goodNames, dotFree, pEx, Property.Name],
   (getByName_spec (PropertyStruct.mk "T" ""
      [Property.mk "a" [] "" "" "" [] [pEx "b"] "" false]) "a.b").2.1
      (by simp [goodNames, dotFree, pEx, Property.Name])⟩

/-! ### C7 and C10: default propagation (`SetDefaults`) -/

/-- A Go value as inspected through `reflect.Value` by `setDefaults`: scalars,
pointers (`none` = nil), interface values (`none` = nil interface) and structs
as ordered field lists. -/
inductive GoValue : Type where
  | vBool (b : Bool)
  | vInt (n : Int)
  | vString (s : String)
  | vPtr (v : Option GoValue)
  | vInterface (v : Option GoValue)
  | vStruct (fields : List (String × GoValue))

mutual
/-- Go `reflect.DeepEqual(f.Interface(), reflect.Zero(f.Type()).Interface())`
(properties.go:77): the value equals the zero value of its type.  A non-nil
pointer is never zero, whatever it points to; a struct is zero iff all its
fields are. -/
def isZeroValue : GoValue → Bool
  | .vBool b => !b
  | .vInt n => n == 0
  | .vString s => s == ""
  | .vPtr v => v.isNone
  | .vInterface v => v.isNone
  | .vStruct fields => isZeroFields fields

def isZeroFields : List (String × GoValue) → Bool
  | [] => true
  | (_, v) :: rest => isZeroValue v && isZeroFields rest
end

/-- Go `reflect.Value.FieldByName` on a struct value, as first-match lookup in
the ordered field list; `none` models the zero `reflect.Value` returned for a
missing field (properties.go:72-73). -/
def lookupField : List (String × GoValue) → String → Option GoValue
  | [], _ => none
  | (n, v) :: rest, name => if n == name then some v else lookupField rest name

/-- Go `if f.Kind() == reflect.Interface { f = f.Elem() }`
(properties.go:81-83).  A nil interface never reaches this point: it is the
zero value and was skipped at properties.go:77. -/
def elemIfInterface : GoValue → GoValue
  | .vInterface (some v) => v
  | v => v

/-- Go `fmt.Sprintf("%v", f.Interface())` (properties.go:95) for the values
this model can render.  A pointer prints its address and is not determined by
the value; structs and interfaces never reach this rendering in
`setDefaults` (structs recurse, interfaces are unwrapped first); no claim
depends on those three placeholder strings. -/
def goFormat : GoValue → String
  | .vBool b => cond b "true" "false"
  | .vInt n => toString n
  | .vString s => s
  | .vPtr _ => "<pointer address>"
  | .vInterface _ => "<interface>"
  | .vStruct _ => "<struct>"

/-- Go `setDefaults` (properties.go:68-98).  `fnf` models
`proptools.FieldNameForProperty`; the spec treats the naming convention as an
injected pure function, so it is a parameter here.  `none` models the panic
at properties.go:74 (and its propagation out of recursive calls); `some`
carries the updated properties.  Per property, in source order: field lookup
(panic when missing), skip when the outer value is zero, unwrap one
interface, skip when a pointer is nil else dereference once, then recurse
into a struct or stamp the rendered value into `Default`. -/
def setDefaults (fnf : String → String) :
    List Property → List (String × GoValue) → Option (List Property)
  | [], _ => some []
  | .mk n onm ty tg tx ot pps d a :: ps, fields =>
    match lookupField fields (fnf n) with
    | none => none
    | some f0 =>
      if isZeroValue f0 then
        (setDefaults fnf ps fields).map
          (fun rest => .mk n onm ty tg tx ot pps d a :: rest)
      else
        match elemIfInterface f0 with
        | .vPtr none =>
          (setDefaults fnf ps fields).map
            (fun rest => .mk n onm ty tg tx ot pps d a :: rest)
        | .vPtr (some (.vStruct flds)) =>
          match setDefaults fnf pps flds, setDefaults fnf ps fields with
          | some sub, some rest => some (.mk n onm ty tg tx ot sub d a :: rest)
          | _, _ => none
        | .vPtr (some w) =>
          (setDefaults fnf ps fields).map
            (fun rest => .mk n onm ty tg tx ot pps (goFormat w) a :: rest)
        | .vStruct flds =>
          match setDefaults fnf pps flds, setDefaults fnf ps fields with
          | some sub, some rest => some (.mk n onm ty tg tx ot sub d a :: rest)
          | _, _ => none
        | w =>
          (setDefaults fnf ps fields).map
            (fun rest => .mk n onm ty tg tx ot pps (goFormat w) a :: rest)

/-- Go `PropertyStruct.SetDefaults` (properties.go:64-66). -/
def PropertyStruct.SetDefaults (T : PropertyStruct) (fnf : String → String)
    (defaults : List (String × GoValue)) : Option PropertyStruct :=
  (setDefaults fnf T.Properties defaults).map
    (fun props => { T with Properties := props })

/-- Whenever a top-level property's field is missing, the walk panics. -/
theorem setDefaults_missing : ∀ (props : List Property)
    (fnf : String → String) (fields : List (String × GoValue)),
    (∃ p ∈ props, lookupField fields (fnf p.Name) = none) →
    setDefaults fnf props fields = none := by
  intro props fnf fields h
  induction props with
  | nil => obtain ⟨p, hp, -⟩ := h; cases hp
  | cons p ps ih =>
    cases p with
    | mk n onm ty tg tx ot pps d a =>
      obtain ⟨q, hq, hmiss⟩ := h
      rcases List.mem_cons.mp hq with hq | hq
      · subst hq
        simp only [Property.Name] at hmiss
        simp [setDefaults, hmiss]
      · have hrest : setDefaults fnf ps fields = none := ih ⟨q, hq, hmiss⟩
        simp only [setDefaults]
        cases hlook : lookupField fields (fnf n) with
        | none => rfl
        | some f0 =>
          by_cases hz : isZeroValue f0 = true
          · simp [hz, hrest]
          · simp only [hz, if_neg, Bool.false_eq_true, if_false]
            cases helem : elemIfInterface f0 with
            | vPtr v =>
              cases v with
              | none => simp [hrest]
              | some w =>
                cases w with
                | vStruct flds =>
                  cases setDefaults fnf pps flds <;> simp [hrest]
                | vBool b => simp [hrest]
                | vInt m => simp [hrest]
                | vString s => simp [hrest]
                | vPtr v2 => simp [hrest]
                | vInterface v2 => simp [hrest]
            | vStruct flds => cases setDefaults fnf pps flds <;> simp [hrest]
            | vBool b => simp [hrest]
            | vInt m => simp [hrest]
            | vString s => simp [hrest]
            | vInterface v2 => simp [hrest]

/-- C7: if some property reached by the `SetDefaults` walk has no
corresponding field on the live instance under the naming-convention mapping,
`SetDefaults` panics (modelled by `none`) instead of returning an error or
skipping the property; the panic propagates out of the whole call, so no
updated tree is produced. -/
theorem setDefaults_missing_field_spec (fnf : String → String)
    (T : PropertyStruct) (fields : List (String × GoValue))
    (h : ∃ p ∈ T.Properties, lookupField fields (fnf p.Name) = none) :
    T.SetDefaults fnf fields = none := by
  simp [PropertyStruct.SetDefaults, setDefaults_missing T.Properties fnf fields h]

/-- C7 witness: a live instance with no fields panics for a one-property
tree. -/
theorem setDefaults_missing_field_witness :
    (∃ p ∈ (PropertyStruct.mk "T" "" [pEx "x"]).Properties,
      lookupField [] (id p.Name) = none) ∧
    (PropertyStruct.mk "T" "" [pEx "x"]).SetDefaults id [] = none :=
  ⟨⟨pEx "x", List.mem_singleton.mpr rfl, rfl⟩,
   setDefaults_missing_field_spec id (PropertyStruct.mk "T" "" [pEx "x"]) []
     ⟨pEx "x", List.mem_singleton.mpr rfl, rfl⟩⟩

/-- C10: the zero-value skip tests the outer field value, so a non-nil
pointer to a zero value is not skipped: after dereferencing, a non-struct
pointee has its rendered (zero) value stamped into `Default`, and a struct
pointee is recursed into. -/
theorem setDefaults_ptr_zero_spec (fnf : String → String) (p : Property)
    (ps : List Property) (fields : List (String × GoValue)) (w : GoValue)
    (rest : List Property)
    (h : lookupField fields (fnf p.Name) = some (.vPtr (some w)))
    (hz : isZeroValue w = true)
    (hrest : setDefaults fnf ps fields = some rest) :
    isZeroValue (GoValue.vPtr (some w)) = false ∧
    ((∀ flds, w ≠ .vStruct flds) →
      setDefaults fnf (p :: ps) fields =
        some (p.withDefault (goFormat w) :: rest)) ∧
    (∀ flds sub, w = .vStruct flds →
      setDefaults fnf p.Properties flds = some sub →
      setDefaults fnf (p :: ps) fields =
        some (p.withProperties sub :: rest)) := by
  cases p with
  | mk n onm ty tg tx ot pps d a =>
    simp only [Property.Name] at h
    refine ⟨by simp [isZeroValue], ?_, ?_⟩
    · intro hnotstruct
      simp only [setDefaults, h, isZeroValue, Option.isNone_some,
        Bool.false_eq_true, if_false, elemIfInterface]
      cases w with
      | vStruct flds => exact absurd rfl (hnotstruct flds)
      | vBool b => simp [hrest, Property.withDefault]
      | vInt m => simp [hrest, Property.withDefault]
      | vString s => simp [hrest, Property.withDefault]
      | vPtr v2 => simp [hrest, Property.withDefault]
      | vInterface v2 => simp [hrest, Property.withDefault]
    · intro flds sub hw hsub
      subst hw
      simp only [setDefaults, h, isZeroValue, Option.isNone_some,
        Bool.false_eq_true, if_false, elemIfInterface, Property.Properties] at *
      simp [hsub, hrest, Property.withProperties]

/-- C10 witness: a field holding a non-nil pointer to the zero integer stamps
`"0"` into `Default`. -/
theorem setDefaults_ptr_zero_witness :
    lookupField [("x", GoValue.vPtr (some (.vInt 0)))] (id (pEx "x").Name) =
      some (.vPtr (some (.vInt 0))) ∧
    isZeroValue (GoValue.vInt 0) = true ∧
    setDefaults id [pEx "x"] [("x", GoValue.vPtr (some (.vInt 0)))] =
      some [(pEx "x").withDefault (goFormat (GoValue.vInt 0))] :=
  ⟨rfl, rfl,
   (setDefaults_ptr_zero_spec id (pEx "x") [] [("x", GoValue.vPtr (some (.vInt 0)))]
      (.vInt 0) [] rfl rfl (by simp [setDefaults])).2.1
      (fun flds hc => by cases hc)⟩

/-- C6 counterexample: the path `"a.b"` names the second top-level node (whose
name contains a dot), but `GetByName` commits to the branch of the first node
`"a"` and returns not-found. -/
theorem getByName_dotted_name_counterexample :
    "a.b" ∈ pathsOf "" [pEx "a", pEx "a.b"] ∧
    (PropertyStruct.mk "T" "" [pEx "a", pEx "a.b"]).GetByName "a.b" = none := by
  constructor
  · simp [pathsOf, pEx]
  · simp [PropertyStruct.GetByName, getByName, pEx, hasPrefixStr]

/-! ### C8: doc-comment formatting -/

/-- Go `unicode.IsSpace`: the White_Space runes. -/
def goIsSpace (c : Char) : Bool :=
  c == ' ' || c == '\t' || c == '\n' || c == Char.ofNat 0x0B ||
  c == Char.ofNat 0x0C || c == '\r' || c == Char.ofNat 0x85 ||
  c == Char.ofNat 0xA0 || c == Char.ofNat 0x1680 ||
  (Char.ofNat 0x2000 ≤ c && c ≤ Char.ofNat 0x200A) || c == Char.ofNat 0x2028 ||
  c == Char.ofNat 0x2029 || c == Char.ofNat 0x202F || c == Char.ofNat 0x205F ||
  c == Char.ofNat 0x3000

/-- properties.go:347-348: decode the line's first rune
(`utf8.DecodeRuneInString` yields `RuneError` on the empty string, which is
not a space) and test `unicode.IsSpace`. -/
def lineIndented (line : String) : Bool :=
  match line.data with
  | [] => false
  | c :: _ => goIsSpace c

/-- Go `template.HTMLEscapeString`, per rune: NUL becomes the replacement
rune; double quote, apostrophe, ampersand, less-than and greater-than become
entities; everything else is unchanged. -/
def htmlEscapeChar (c : Char) : String :=
  if c == Char.ofNat 0 then "�"
  else if c == '"' then "&#34;"
  else if c == Char.ofNat 39 then "&#39;"
  else if c == '&' then "&amp;"
  else if c == '<' then "&lt;"
  else if c == '>' then "&gt;"
  else String.singleton c

/-- Go `template.HTMLEscapeString` over a whole string. -/
def htmlEscapeString (s : String) : String :=
  s.data.foldl (fun acc c => acc ++ htmlEscapeChar c) ""

/-- One iteration of the loop in `formatText` (properties.go:346-357); the
state is the accumulated markup and the `preformatted` flag. -/
def formatTextStep (acc : String × Bool) (line : String) : String × Bool :=
  let indent := lineIndented line
  let acc1 :=
    if indent && !acc.2 then (acc.1 ++ "<pre>\n\n", true)
    else if !indent && line != "" && acc.2 then (acc.1 ++ "</pre>\n", false)
    else acc
  (acc1.1 ++ htmlEscapeString line ++ "\n", acc1.2)

/-- Go `formatText` (properties.go:342-362): split on newlines, emit each
escaped line followed by a newline, opening a `<pre>` block before an
indented line when not already preformatted and closing it before a
non-empty unindented line when preformatted; close a still-open block at the
end. -/
def formatText (text : String) : String :=
  let res := (goSplit '\n' text).foldl formatTextStep ("", false)
  if res.2 then res.1 ++ "</pre>\n" else res.1

/-- C8: `formatText ""` is a single escaped empty line with no preformatted
markers, and `formatText "a\n  b\nc"` is, in order: escaped `"a"`, the
block-open marker, escaped `"  b"`, the block-close marker, escaped `"c"`,
each emitted line followed by a line break. -/
theorem formatText_examples_spec :
    formatText "" = "\n" ∧
    formatText "a\n  b\nc" = "a\n<pre>\n\n  b\n</pre>\nc\n" := by
  constructor <;> rfl

/-! ### C1: type-shape resolution -/

mutual
/-- The `go/ast` expression shapes relevant to `getType`
(properties.go:251-295): pointer, array, interface, identifier, struct and
generic-instantiation nodes are inspected explicitly; selector, map and func
nodes are representative shapes that reach the switch's `default` case. -/
inductive AstExpr : Type where
  | starExpr (x : AstExpr)
  | arrayType (elt : AstExpr)
  | interfaceType
  | ident (name : String)
  | structType (fields : List AstField)
  | indexExpr (x index : AstExpr)
  | selectorExpr (x : AstExpr) (sel : String)
  | mapType (key value : AstExpr)
  | funcType

/-- An `*ast.Field`: declared names (empty for an embedded field), the type
expression, the doc-comment text (`f.Doc.Text()`, empty when absent) and the
raw tag literal. -/
inductive AstField : Type where
  | mk (names : List String) (fieldType : AstExpr) (doc : String)
       (tag : Option String) : AstField
end

/-- `fmt.Sprintf("%T", expr)`: the dynamic Go type name of the AST node
(properties.go:291). -/
def AstExpr.goTypeName : AstExpr → String
  | .starExpr _ => "*ast.StarExpr"
  | .arrayType _ => "*ast.ArrayType"
  | .interfaceType => "*ast.InterfaceType"
  | .ident _ => "*ast.Ident"
  | .structType _ => "*ast.StructType"
  | .indexExpr _ _ => "*ast.IndexExpr"
  | .selectorExpr _ _ => "*ast.SelectorExpr"
  | .mapType _ _ => "*ast.MapType"
  | .funcType => "*ast.FuncType"

/-- Go `isConfigurableAst` (properties.go:297-309): a bare `Configurable`
identifier or the selector `proptools.Configurable`. -/
def isConfigurableAst : AstExpr → Bool
  | .ident n => n == "Configurable"
  | .selectorExpr (.ident l) sel => l == "proptools" && sel == "Configurable"
  | _ => false

mutual
/-- Modelled from the spec: the "textual dump of the offending shape" carried
by the unknown-type error.  The Go code prints the node with `ast.Fprint`
(standard library, not part of this repository); here it is a structural
S-expression dump. -/
def astDump : AstExpr → String
  | .starExpr x => "(star " ++ astDump x ++ ")"
  | .arrayType e => "(array " ++ astDump e ++ ")"
  | .interfaceType => "interface"
  | .ident n => n
  | .structType fs => "(struct" ++ astDumpFields fs ++ ")"
  | .indexExpr x i => "(index " ++ astDump x ++ " " ++ astDump i ++ ")"
  | .selectorExpr x s => "(sel " ++ astDump x ++ " " ++ s ++ ")"
  | .mapType k v => "(map " ++ astDump k ++ " " ++ astDump v ++ ")"
  | .funcType => "func"

def astDumpFields : List AstField → String
  | [] => ""
  | .mk _ t _ _ :: rest => " " ++ astDump t ++ astDumpFields rest
end

/-- properties.go:252-257: unwrap one level of pointer. -/
def unstar : AstExpr → AstExpr
  | .starExpr x => x
  | e => e

theorem sizeOf_unstar_le (e : AstExpr) : sizeOf (unstar e) ≤ sizeOf e := by
  cases e <;> simp [unstar]

mutual
/-- Go `getType` (properties.go:251-295).  `pnf` models
`proptools.PropertyNameForField` and `unq` models `strconv.Unquote` (both
outside this file's sources; the spec injects the naming convention and
requires tags to be valid quoted literals). -/
def getType (pnf : String → String) (unq : String → Except String String)
    (expr : AstExpr) : Except String (String × List Property) :=
  getTypeDispatch pnf unq expr (unstar expr)
termination_by 2 * sizeOf expr + 1
decreasing_by
  simp_wf
  have := sizeOf_unstar_le expr
  omega

/-- The `switch` of `getType`, dispatching on the unwrapped expression while
`orig` is the original expression (used by the `%T` fallback and by the
unknown-type error's dump). -/
def getTypeDispatch (pnf : String → String) (unq : String → Except String String)
    (orig : AstExpr) : AstExpr → Except String (String × List Property)
  | .arrayType elt =>
    match getType pnf unq elt with
    | .error e => .error e
    | .ok (eltTy, inner) => .ok ("list of " ++ eltTy, inner)
  | .interfaceType => .ok ("interface", [])
  | .ident n => .ok (n, [])
  | .structType fields =>
    match structProperties pnf unq fields with
    | .error e => .error e
    | .ok inner => .ok ("", inner)
  | .indexExpr x index =>
    if !isConfigurableAst x then .error ("unknown type " ++ astDump orig)
    else
      match getType pnf unq index with
      | .error e => .error e
      | .ok (innerTy, inner) => .ok ("configurable " ++ innerTy, inner)
  | .starExpr _ => .ok (orig.goTypeName, [])
  | .selectorExpr _ _ => .ok (orig.goTypeName, [])
  | .mapType _ _ => .ok (orig.goTypeName, [])
  | .funcType => .ok (orig.goTypeName, [])
termination_by t => 2 * sizeOf t
decreasing_by
  all_goals simp_wf
  all_goals omega

/-- Go `structProperties` (properties.go:209-249): per field, use the type's
identifier as name when the field is anonymous (silently dropping the field
when the type is not an identifier), unquote the tag, resolve the type shape,
and emit one `Property` per declared name. -/
def structProperties (pnf : String → String)
    (unq : String → Except String String) :
    List AstField → Except String (List Property)
  | [] => .ok []
  | .mk names fieldType doc tag :: rest =>
    let names2 :=
      if names.isEmpty then
        (match fieldType with | .ident n => [n] | _ => [])
      else names
    if names2.isEmpty then structProperties pnf unq rest
    else
      match (match tag with
             | none => (Except.ok "" : Except String String)
             | some t => unq t) with
      | .error e => .error e
      | .ok tagStr =>
        match getType pnf unq fieldType with
        | .error e => .error e
        | .ok (typ, inner) =>
          match structProperties pnf unq rest with
          | .error e => .error e
          | .ok restProps =>
            .ok ((names2.map fun nm =>
              Property.mk (pnf nm) [] typ tagStr (formatText doc) [] inner
                "" false) ++ restProps)
termination_by fields => 2 * sizeOf fields
decreasing_by
  all_goals simp_wf
  all_goals omega
end

/-- The shapes outside the recognized cases of `getType`'s switch, after
pointer unwrapping (the switch's `default`). -/
def unrecognizedShape (e : AstExpr) : Bool :=
  match unstar e with
  | .starExpr _ => true
  | .selectorExpr _ _ => true
  | .mapType _ _ => true
  | .funcType => true
  | _ => false

/-- C1 (amended): only a generic instantiation (`IndexExpr`) whose base is
not the Configurable marker fails, with an error carrying a textual dump of
the offending shape, and that error aborts the enclosing struct walk; every
other shape outside the recognized cases resolves without error to the
fallback descriptor `%T` of the expression. -/
theorem getType_unknown_spec (pnf : String → String)
    (unq : String → Except String String) (e x i : AstExpr)
    (h1 : unrecognizedShape e = true) (h2 : isConfigurableAst x = false) :
    getType pnf unq e = .ok (e.goTypeName, []) ∧
    getType pnf unq (.indexExpr x i) =
      .error ("unknown type " ++ astDump (.indexExpr x i)) ∧
    structProperties pnf unq [.mk ["f"] (.indexExpr x i) "" none] =
      .error ("unknown type " ++ astDump (.indexExpr x i)) := by
  have herr : getType pnf unq (.indexExpr x i) =
      .error ("unknown type " ++ astDump (.indexExpr x i)) := by
    simp [getType, getTypeDispatch, unstar, h2]
  refine ⟨?_, herr, ?_⟩
  · cases e with
    | starExpr y =>
      cases y <;> simp_all [unrecognizedShape, unstar, getType, getTypeDispatch,
        AstExpr.goTypeName]
    | selectorExpr z s =>
      simp [getType, getTypeDispatch, unstar, AstExpr.goTypeName]
    | mapType k v =>
      simp [getType, getTypeDispatch, unstar, AstExpr.goTypeName]
    | funcType =>
      simp [getType, getTypeDispatch, unstar, AstExpr.goTypeName]
    | arrayType elt => simp [unrecognizedShape, unstar] at h1
    | interfaceType => simp [unrecognizedShape, unstar] at h1
    | ident n => simp [unrecognizedShape, unstar] at h1
    | structType fs => simp [unrecognizedShape, unstar] at h1
    | indexExpr a b => simp [unrecognizedShape, unstar] at h1
  · simp [structProperties, herr]

/-- C1 witness: `getType_unknown_spec` at a concrete map shape and a concrete
non-Configurable generic instantiation. -/
theorem getType_unknown_witness :
    unrecognizedShape (.mapType (.ident "string") (.ident "string")) = true ∧
    isConfigurableAst (.ident "Foo") = false ∧
    getType id (fun s => .ok s) (.mapType (.ident "string") (.ident "string")) =
      .ok ("*ast.MapType", []) :=
  ⟨rfl, by simp [isConfigurableAst],
   (getType_unknown_spec id (fun s => .ok s)
      (.mapType (.ident "string") (.ident "string")) (.ident "Foo")
      (.ident "string") rfl (by simp [isConfigurableAst])).1⟩

/-- C1 counterexample: a map type matches none of the recognized cases, yet
`getType` succeeds with the `%T` fallback descriptor instead of failing with
an unknown-type error — refuting "anything else fails with
UnknownTypeError". -/
theorem getType_no_error_counterexample :
    getType id (fun s => .ok s)
        (.mapType (.ident "string") (.ident "string")) =
      .ok ("*ast.MapType", []) := by
  simp [getType, getTypeDispatch, unstar, AstExpr.goTypeName]

/-! ### C3: `Clone` and aliasing

Go slice headers alias backing arrays, so `Clone`'s sharing behaviour is
modelled with an explicit heap: a `Property` value holds addresses of the
backing arrays of its three slice fields, and reading a value back into the
pure `Property` tree dereferences the heap.  Recursion over the heap is
fuelled; the Go data is acyclic, so enough fuel always exists. -/

/-- Address of a slice backing array. -/
abbrev Addr := Nat

/-- A Go `Property` struct value as stored in memory: scalar fields inline,
slice fields (`OtherNames`, `OtherTexts`, `Properties`) as addresses of
backing arrays. -/
structure PropertyV : Type where
  Name : String
  OtherNames : Addr
  Ty : String
  Tag : String
  Text : String
  OtherTexts : Addr
  Properties : Addr
  Default : String
  Anonymous : Bool

/-- A Go `PropertyStruct` value: scalars inline, `Properties` as an
address. -/
structure PropertyStructV : Type where
  Name : String
  Text : String
  Properties : Addr

/-- The heap: backing arrays of string slices (`[]string` and
`[]template.HTML` share one address space) and of `[]Property` slices. -/
structure Heap : Type where
  strArrs : List (List String)
  propArrs : List (List PropertyV)

mutual
/-- Read a stored `Property` back into the pure tree, dereferencing its three
backing arrays; `none` when an address dangles or fuel runs out. -/
def readP : Nat → Heap → PropertyV → Option Property
  | 0, _, _ => none
  | fuel+1, h, p =>
    match h.strArrs.get? p.OtherNames, h.strArrs.get? p.OtherTexts,
          h.propArrs.get? p.Properties with
    | some onm, some ot, some arr =>
      (readPList fuel h arr).map fun children =>
        .mk p.Name onm p.Ty p.Tag p.Text ot children p.Default p.Anonymous
    | _, _, _ => none
termination_by fuel _ _ => (fuel, 0)

def readPList : Nat → Heap → List PropertyV → Option (List Property)
  | _, _, [] => some []
  | fuel, h, p :: ps =>
    match readP fuel h p, readPList fuel h ps with
    | some t, some ts => some (t :: ts)
    | _, _ => none
termination_by fuel _ l => (fuel, l.length + 1)
end

mutual
/-- Go `Property.Clone` (properties.go:46-54) over the heap model.  The
struct copy `ret := *p` copies the `OtherNames` and `OtherTexts` slice
headers verbatim (same backing addresses); `slices.Clone` plus the
per-element loop builds a fresh backing array of recursively cloned elements
for `Properties`, appended to the heap at a fresh address. -/
def cloneP : Nat → Heap → PropertyV → Option (Heap × PropertyV)
  | 0, _, _ => none
  | fuel+1, h, p =>
    match h.propArrs.get? p.Properties with
    | none => none
    | some arr =>
      match clonePList fuel h arr with
      | none => none
      | some (h1, arr1) =>
        some ({ h1 with propArrs := h1.propArrs ++ [arr1] },
              { p with Properties := h1.propArrs.length })
termination_by fuel _ _ => (fuel, 0)

def clonePList : Nat → Heap → List PropertyV → Option (Heap × List PropertyV)
  | _, h, [] => some (h, [])
  | fuel, h, p :: ps =>
    match cloneP fuel h p with
    | none => none
    | some (h1, p1) =>
      match clonePList fuel h1 ps with
      | none => none
      | some (h2, ps2) => some (h2, p1 :: ps2)
termination_by fuel _ l => (fuel, l.length + 1)
end

/-- Read a stored `PropertyStruct` back into the pure tree. -/
def readPS (fuel : Nat) (h : Heap) (T : PropertyStructV) :
    Option PropertyStruct :=
  match h.propArrs.get? T.Properties with
  | none => none
  | some arr =>
    (readPList fuel h arr).map fun props => .mk T.Name T.Text props

/-- Go `PropertyStruct.Clone` (properties.go:36-44) over the heap model. -/
def clonePS (fuel : Nat) (h : Heap) (T : PropertyStructV) :
    Option (Heap × PropertyStructV) :=
  match h.propArrs.get? T.Properties with
  | none => none
  | some arr =>
    match clonePList fuel h arr with
    | none => none
    | some (h1, arr1) =>
      some ({ h1 with propArrs := h1.propArrs ++ [arr1] },
            { T with Properties := h1.propArrs.length })

/-- Overwrite one element of one string backing array: the observable effect
of `x.OtherNames[i] = s` through any slice header holding address `a`. -/
def writeStr (h : Heap) (a i : Nat) (s : String) : Heap :=
  { h with strArrs := h.strArrs.set a ((h.strArrs.getD a []).set i s) }

mutual
/-- Every `Properties` backing address reachable from `p` (its own and,
recursively, those of the stored elements) is at or above `bound`. -/
def allFresh (bound : Nat) : Nat → Heap → PropertyV → Bool
  | 0, _, _ => false
  | fuel+1, h, p =>
    decide (bound ≤ p.Properties) &&
    match h.propArrs.get? p.Properties with
    | none => false
    | some arr => allFreshList bound fuel h arr
termination_by fuel _ _ => (fuel, 0)

def allFreshList (bound : Nat) : Nat → Heap → List PropertyV → Bool
  | _, _, [] => true
  | fuel, h, p :: ps => allFresh bound fuel h p && allFreshList bound fuel h ps
termination_by fuel _ l => (fuel, l.length + 1)
end

/-- `allFresh` for the root of a stored `PropertyStruct`. -/
def psAllFresh (bound fuel : Nat) (h : Heap) (T : PropertyStructV) : Bool :=
  decide (bound ≤ T.Properties) &&
  match h.propArrs.get? T.Properties with
  | none => false
  | some arr => allFreshList bound fuel h arr

theorem get?_some_lt {α : Type} {l : List α} {n : Nat} {a : α}
    (h : l.get? n = some a) : n < l.length := by
  by_contra hc
  rw [List.get?_eq_none.mpr (Nat.le_of_not_lt hc)] at h
  cases h

/-- `h₂` agrees with `h₁` on all string arrays and on every property-array
address valid in `h₁`. -/
def HeapAgrees (h₁ h₂ : Heap) : Prop :=
  h₂.strArrs = h₁.strArrs ∧
  ∀ a, a < h₁.propArrs.length → h₂.propArrs.get? a = h₁.propArrs.get? a

theorem heapAgrees_of_ext {h₁ h₂ : Heap} (hs : h₂.strArrs = h₁.strArrs)
    (ext : List (List PropertyV)) (hp : h₂.propArrs = h₁.propArrs ++ ext) :
    HeapAgrees h₁ h₂ :=
  ⟨hs, fun a ha => by rw [hp, List.get?_append ha]⟩

theorem heapAgrees_trans {h₁ h₂ h₃ : Heap} (a12 : HeapAgrees h₁ h₂)
    (a23 : HeapAgrees h₂ h₃) (hle : h₁.propArrs.length ≤ h₂.propArrs.length) :
    HeapAgrees h₁ h₃ :=
  ⟨a23.1.trans a12.1,
   fun a ha => (a23.2 a (Nat.lt_of_lt_of_le ha hle)).trans (a12.2 a ha)⟩

/-! Heap growth of `cloneP`: cloning only appends property arrays and leaves
the string arrays untouched. -/

mutual
theorem cloneP_extends : ∀ (fuel : Nat) (h : Heap) (p : PropertyV)
    (h' : Heap) (p' : PropertyV), cloneP fuel h p = some (h', p') →
    h'.strArrs = h.strArrs ∧ ∃ ext, h'.propArrs = h.propArrs ++ ext
  | 0, h, p, h', p', hc => by simp [cloneP] at hc
  | fuel+1, h, p, h', p', hc => by
    simp only [cloneP] at hc
    cases harr : h.propArrs.get? p.Properties with
    | none => simp only [harr] at hc; cases hc
    | some arr =>
      simp only [harr] at hc
      cases hcl : clonePList fuel h arr with
      | none => simp only [hcl] at hc; cases hc
      | some res =>
        obtain ⟨h1, arr1⟩ := res
        simp only [hcl, Option.some.injEq, Prod.mk.injEq] at hc
        obtain ⟨hh, -⟩ := hc
        obtain ⟨hs, ext, hext⟩ := clonePList_extends fuel h arr h1 arr1 hcl
        subst hh
        exact ⟨hs, ext ++ [arr1], by simp [hext]⟩
termination_by fuel _ _ _ _ _ => (fuel, 0)

theorem clonePList_extends : ∀ (fuel : Nat) (h : Heap) (l : List PropertyV)
    (h' : Heap) (l' : List PropertyV), clonePList fuel h l = some (h', l') →
    h'.strArrs = h.strArrs ∧ ∃ ext, h'.propArrs = h.propArrs ++ ext
  | fuel, h, [], h', l', hc => by
    simp only [clonePList, Option.some.injEq, Prod.mk.injEq] at hc
    obtain ⟨hh, -⟩ := hc
    subst hh
    exact ⟨rfl, [], by simp⟩
  | fuel, h, p :: ps, h', l', hc => by
    simp only [clonePList] at hc
    cases hc1 : cloneP fuel h p with
    | none => simp only [hc1] at hc; cases hc
    | some res1 =>
      obtain ⟨h1, p1⟩ := res1
      simp only [hc1] at hc
      cases hc2 : clonePList fuel h1 ps with
      | none => simp only [hc2] at hc; cases hc
      | some res2 =>
        obtain ⟨h2, ps2⟩ := res2
        simp only [hc2, Option.some.injEq, Prod.mk.injEq] at hc
        obtain ⟨hh, -⟩ := hc
        subst hh
        obtain ⟨hs1, ext1, hext1⟩ := cloneP_extends fuel h p h1 p1 hc1
        obtain ⟨hs2, ext2, hext2⟩ := clonePList_extends fuel h1 ps h2 ps2 hc2
        exact ⟨hs2.trans hs1, ext1 ++ ext2, by simp [hext2, hext1]⟩
termination_by fuel _ l _ _ _ => (fuel, l.length + 1)
end

/-! Read-back is stable under heap agreement. -/

mutual
theorem readP_stable : ∀ (fuel : Nat) (h₁ h₂ : Heap) (p : PropertyV)
    (t : Property), HeapAgrees h₁ h₂ → readP fuel h₁ p = some t →
    readP fuel h₂ p = some t
  | 0, _, _, _, _, _, hr => by simp [readP] at hr
  | fuel+1, h₁, h₂, p, t, hag, hr => by
    simp only [readP] at hr ⊢
    cases honm : h₁.strArrs.get? p.OtherNames with
    | none => simp only [honm] at hr; cases hr
    | some onm =>
      simp only [honm] at hr
      cases hot : h₁.strArrs.get? p.OtherTexts with
      | none => simp only [hot] at hr; cases hr
      | some ot =>
        simp only [hot] at hr
        cases harr : h₁.propArrs.get? p.Properties with
        | none => simp only [harr] at hr; cases hr
        | some arr =>
          simp only [harr] at hr
          cases hcl : readPList fuel h₁ arr with
          | none => simp only [hcl] at hr; cases hr
          | some children =>
            simp only [hcl] at hr
            rw [hag.1]
            simp only [honm, hot, hag.2 p.Properties (get?_some_lt harr), harr,
              readPList_stable fuel h₁ h₂ arr children hag hcl]
            exact hr
termination_by fuel _ _ _ _ _ _ => (fuel, 0)

theorem readPList_stable : ∀ (fuel : Nat) (h₁ h₂ : Heap)
    (l : List PropertyV) (ts : List Property), HeapAgrees h₁ h₂ →
    readPList fuel h₁ l = some ts → readPList fuel h₂ l = some ts
  | fuel, h₁, h₂, [], ts, _, hr => by
    simpa [readPList] using hr
  | fuel, h₁, h₂, p :: ps, ts, hag, hr => by
    simp only [readPList] at hr ⊢
    cases h1 : readP fuel h₁ p with
    | none => simp only [h1] at hr; cases hr
    | some t =>
      simp only [h1] at hr
      cases h2 : readPList fuel h₁ ps with
      | none => simp only [h2] at hr; cases hr
      | some rest =>
        simp only [h2] at hr
        simp only [readP_stable fuel h₁ h₂ p t hag h1,
          readPList_stable fuel h₁ h₂ ps rest hag h2]
        exact hr
termination_by fuel _ _ l _ _ _ => (fuel, l.length + 1)
end

theorem readPS_stable (fuel : Nat) (h₁ h₂ : Heap) (T : PropertyStructV)
    (t : PropertyStruct) (hag : HeapAgrees h₁ h₂)
    (hr : readPS fuel h₁ T = some t) : readPS fuel h₂ T = some t := by
  simp only [readPS] at hr ⊢
  cases harr : h₁.propArrs.get? T.Properties with
  | none => simp only [harr] at hr; cases hr
  | some arr =>
    simp only [harr] at hr
    cases hcl : readPList fuel h₁ arr with
    | none => simp only [hcl] at hr; cases hr
    | some props =>
      simp only [hcl] at hr
      simp only [hag.2 T.Properties (get?_some_lt harr), harr,
        readPList_stable fuel h₁ h₂ arr props hag hcl]
      exact hr

/-! The clone reads back as exactly the original tree. -/

mutual
theorem cloneP_read : ∀ (fuel : Nat) (h : Heap) (p : PropertyV) (h' : Heap)
    (p' : PropertyV) (t : Property), cloneP fuel h p = some (h', p') →
    readP fuel h p = some t → readP fuel h' p' = some t
  | 0, _, _, _, _, _, hc, _ => by simp [cloneP] at hc
  | fuel+1, h, p, h', p', t, hc, hr => by
    simp only [cloneP] at hc
    simp only [readP] at hr ⊢
    cases honm : h.strArrs.get? p.OtherNames with
    | none => simp only [honm] at hr; cases hr
    | some onm =>
      simp only [honm] at hr
      cases hot : h.strArrs.get? p.OtherTexts with
      | none => simp only [hot] at hr; cases hr
      | some ot =>
        simp only [hot] at hr
        cases harr : h.propArrs.get? p.Properties with
        | none => simp only [harr] at hr; cases hr
        | some arr =>
          simp only [harr] at hr hc
          cases hcl : clonePList fuel h arr with
          | none => simp only [hcl] at hc; cases hc
          | some res =>
            obtain ⟨h1, arr1⟩ := res
            simp only [hcl, Option.some.injEq, Prod.mk.injEq] at hc
            obtain ⟨hh, hp⟩ := hc
            cases hchild : readPList fuel h arr with
            | none => simp only [hchild] at hr; cases hr
            | some children =>
              simp only [hchild] at hr
              obtain ⟨hs1, ext1, hext1⟩ := clonePList_extends fuel h arr h1 arr1 hcl
              have hread1 : readPList fuel h1 arr1 = some children :=
                clonePList_read fuel h arr h1 arr1 children hcl hchild
              have hagree : HeapAgrees h1 h' := by
                subst hh
                exact heapAgrees_of_ext rfl [arr1] rfl
              have hread2 : readPList fuel h' arr1 = some children :=
                readPList_stable fuel h1 h' arr1 children hagree hread1
              have hstr : h'.strArrs = h.strArrs := by
                subst hh; exact hs1
              have harr' : h'.propArrs.get? p'.Properties = some arr1 := by
                subst hh; subst hp
                exact List.get?_concat_length _ _
              have honm' : p'.OtherNames = p.OtherNames := by subst hp; rfl
              have hot' : p'.OtherTexts = p.OtherTexts := by subst hp; rfl
              rw [hstr, honm', hot']
              simp only [honm, hot, harr', hread2]
              have hrest : p'.Name = p.Name ∧ p'.Ty = p.Ty ∧ p'.Tag = p.Tag ∧
                  p'.Text = p.Text ∧ p'.Default = p.Default ∧
                  p'.Anonymous = p.Anonymous := by
                subst hp
                exact ⟨rfl, rfl, rfl, rfl, rfl, rfl⟩
              obtain ⟨e1, e2, e3, e4, e5, e6⟩ := hrest
              rw [e1, e2, e3, e4, e5, e6]
              exact hr
termination_by fuel _ _ _ _ _ _ _ => (fuel, 0)

theorem clonePList_read : ∀ (fuel : Nat) (h : Heap) (l : List PropertyV)
    (h' : Heap) (l' : List PropertyV) (ts : List Property),
    clonePList fuel h l = some (h', l') → readPList fuel h l = some ts →
    readPList fuel h' l' = some ts
  | fuel, h, [], h', l', ts, hc, hr => by
    simp only [clonePList, Option.some.injEq, Prod.mk.injEq] at hc
    obtain ⟨hh, hl⟩ := hc
    subst hh; subst hl
    exact hr
  | fuel, h, p :: ps, h', l', ts, hc, hr => by
    simp only [clonePList] at hc
    simp only [readPList] at hr
    cases hc1 : cloneP fuel h p with
    | none => simp only [hc1] at hc; cases hc
    | some res1 =>
      obtain ⟨h1, p1⟩ := res1
      simp only [hc1] at hc
      cases hc2 : clonePList fuel h1 ps with
      | none => simp only [hc2] at hc; cases hc
      | some res2 =>
        obtain ⟨h2, ps2⟩ := res2
        simp only [hc2, Option.some.injEq, Prod.mk.injEq] at hc
        obtain ⟨hh, hl⟩ := hc
        subst hh; subst hl
        cases h1r : readP fuel h p with
        | none => simp only [h1r] at hr; cases hr
        | some t =>
          simp only [h1r] at hr
          cases h2r : readPList fuel h ps with
          | none => simp only [h2r] at hr; cases hr
          | some rest =>
            simp only [h2r] at hr
            obtain ⟨hs1, ext1, hext1⟩ := cloneP_extends fuel h p h1 p1 hc1
            obtain ⟨hs2, ext2, hext2⟩ := clonePList_extends fuel h1 ps h2 ps2 hc2
            have hread1 : readP fuel h1 p1 = some t :=
              cloneP_read fuel h p h1 p1 t hc1 h1r
            have hag12 : HeapAgrees h1 h2 := heapAgrees_of_ext hs2 ext2 hext2
            have hreadp1 : readP fuel h2 p1 = some t :=
              readP_stable fuel h1 h2 p1 t hag12 hread1
            have hag01 : HeapAgrees h h1 := heapAgrees_of_ext hs1 ext1 hext1
            have hrest1 : readPList fuel h1 ps = some rest :=
              readPList_stable fuel h h1 ps rest hag01 h2r
            have hrest2 : readPList fuel h2 ps2 = some rest :=
              clonePList_read fuel h1 ps h2 ps2 rest hc2 hrest1
            simp only [readPList, hreadp1, hrest2]
            exact hr
termination_by fuel _ l _ _ _ _ _ => (fuel, l.length + 1)
end

/-! Freshness: every property array reachable from the clone was allocated by
the clone, at or above the original heap's size. -/

mutual
theorem allFresh_stable : ∀ (fuel bound : Nat) (h₁ h₂ : Heap) (p : PropertyV),
    HeapAgrees h₁ h₂ → allFresh bound fuel h₁ p = true →
    allFresh bound fuel h₂ p = true
  | 0, _, _, _, _, _, hf => by simp [allFresh] at hf
  | fuel+1, bound, h₁, h₂, p, hag, hf => by
    simp only [allFresh, Bool.and_eq_true] at hf ⊢
    refine ⟨hf.1, ?_⟩
    have hf2 := hf.2
    cases harr : h₁.propArrs.get? p.Properties with
    | none => simp only [harr] at hf2; cases hf2
    | some arr =>
      simp only [harr] at hf2
      simp only [hag.2 p.Properties (get?_some_lt harr), harr]
      exact allFreshList_stable fuel bound h₁ h₂ arr hag hf2
termination_by fuel _ _ _ _ _ _ => (fuel, 0)

theorem allFreshList_stable : ∀ (fuel bound : Nat) (h₁ h₂ : Heap)
    (l : List PropertyV), HeapAgrees h₁ h₂ →
    allFreshList bound fuel h₁ l = true → allFreshList bound fuel h₂ l = true
  | _, _, _, _, [], _, _ => by simp [allFreshList]
  | fuel, bound, h₁, h₂, p :: ps, hag, hf => by
    simp only [allFreshList, Bool.and_eq_true] at hf ⊢
    exact ⟨allFresh_stable fuel bound h₁ h₂ p hag hf.1,
           allFreshList_stable fuel bound h₁ h₂ ps hag hf.2⟩
termination_by fuel _ _ _ l _ _ => (fuel, l.length + 1)
end

mutual
theorem allFresh_mono : ∀ (fuel bound bound' : Nat) (h : Heap) (p : PropertyV),
    bound ≤ bound' → allFresh bound' fuel h p = true →
    allFresh bound fuel h p = true
  | 0, _, _, _, _, _, hf => by simp [allFresh] at hf
  | fuel+1, bound, bound', h, p, hle, hf => by
    simp only [allFresh, Bool.and_eq_true, decide_eq_true_eq] at hf ⊢
    refine ⟨Nat.le_trans hle hf.1, ?_⟩
    have hf2 := hf.2
    cases harr : h.propArrs.get? p.Properties with
    | none => simp only [harr] at hf2; cases hf2
    | some arr =>
      simp only [harr] at hf2 ⊢
      exact allFreshList_mono fuel bound bound' h arr hle hf2
termination_by fuel _ _ _ _ _ _ => (fuel, 0)

theorem allFreshList_mono : ∀ (fuel bound bound' : Nat) (h : Heap)
    (l : List PropertyV), bound ≤ bound' →
    allFreshList bound' fuel h l = true → allFreshList bound fuel h l = true
  | _, _, _, _, [], _, _ => by simp [allFreshList]
  | fuel, bound, bound', h, p :: ps, hle, hf => by
    simp only [allFreshList, Bool.and_eq_true] at hf ⊢
    exact ⟨allFresh_mono fuel bound bound' h p hle hf.1,
           allFreshList_mono fuel bound bound' h ps hle hf.2⟩
termination_by fuel _ _ _ l _ _ => (fuel, l.length + 1)
end

mutual
theorem cloneP_fresh : ∀ (fuel : Nat) (h : Heap) (p : PropertyV) (h' : Heap)
    (p' : PropertyV), cloneP fuel h p = some (h', p') →
    allFresh h.propArrs.length fuel h' p' = true
  | 0, h, p, h', p', hc => by simp [cloneP] at hc
  | fuel+1, h, p, h', p', hc => by
    simp only [cloneP] at hc
    cases harr : h.propArrs.get? p.Properties with
    | none => simp only [harr] at hc; cases hc
    | some arr =>
      simp only [harr] at hc
      cases hcl : clonePList fuel h arr with
      | none => simp only [hcl] at hc; cases hc
      | some res =>
        obtain ⟨h1, arr1⟩ := res
        simp only [hcl, Option.some.injEq, Prod.mk.injEq] at hc
        obtain ⟨hh, hp⟩ := hc
        obtain ⟨hs1, ext1, hext1⟩ := clonePList_extends fuel h arr h1 arr1 hcl
        simp only [allFresh, Bool.and_eq_true, decide_eq_true_eq]
        constructor
        · subst hp
          show h.propArrs.length ≤ h1.propArrs.length
          rw [hext1]
          simp [Nat.le_add_right]
        · have harr' : h'.propArrs.get? p'.Properties = some arr1 := by
            subst hh; subst hp
            exact List.get?_concat_length _ _
          simp only [harr']
          have hfresh1 : allFreshList h.propArrs.length fuel h1 arr1 =
              true := clonePList_fresh fuel h arr h1 arr1 hcl
          have hagree : HeapAgrees h1 h' := by
            subst hh
            exact heapAgrees_of_ext rfl [arr1] rfl
          exact allFreshList_stable fuel h.propArrs.length h1 h' arr1
            hagree hfresh1
termination_by fuel _ _ _ _ _ => (fuel, 0)

theorem clonePList_fresh : ∀ (fuel : Nat) (h : Heap) (l : List PropertyV)
    (h' : Heap) (l' : List PropertyV), clonePList fuel h l = some (h', l') →
    allFreshList h.propArrs.length fuel h' l' = true
  | fuel, h, [], h', l', hc => by
    simp only [clonePList, Option.some.injEq, Prod.mk.injEq] at hc
    obtain ⟨-, hl⟩ := hc
    subst hl
    simp [allFreshList]
  | fuel, h, p :: ps, h', l', hc => by
    simp only [clonePList] at hc
    cases hc1 : cloneP fuel h p with
    | none => simp only [hc1] at hc; cases hc
    | some res1 =>
      obtain ⟨h1, p1⟩ := res1
      simp only [hc1] at hc
      cases hc2 : clonePList fuel h1 ps with
      | none => simp only [hc2] at hc; cases hc
      | some res2 =>
        obtain ⟨h2, ps2⟩ := res2
        simp only [hc2, Option.some.injEq, Prod.mk.injEq] at hc
        obtain ⟨hh, hl⟩ := hc
        subst hh; subst hl
        obtain ⟨hs1, ext1, hext1⟩ := cloneP_extends fuel h p h1 p1 hc1
        obtain ⟨hs2, ext2, hext2⟩ := clonePList_extends fuel h1 ps h2 ps2 hc2
        simp only [allFreshList, Bool.and_eq_true]
        constructor
        · have hf1 : allFresh h.propArrs.length fuel h1 p1 = true :=
            cloneP_fresh fuel h p h1 p1 hc1
          exact allFresh_stable fuel h.propArrs.length h1 h2 p1
            (heapAgrees_of_ext hs2 ext2 hext2) hf1
        · have hf2 : allFreshList h1.propArrs.length fuel h2 ps2 = true :=
            clonePList_fresh fuel h1 ps h2 ps2 hc2
          refine allFreshList_mono fuel h.propArrs.length h1.propArrs.length
            h2 ps2 ?_ hf2
          rw [hext1]
          simp [Nat.le_add_right]
termination_by fuel _ l _ _ _ => (fuel, l.length + 1)
end

theorem clonePS_extends (fuel : Nat) (h : Heap) (T : PropertyStructV)
    (h' : Heap) (T' : PropertyStructV) (hc : clonePS fuel h T = some (h', T')) :
    h'.strArrs = h.strArrs ∧ ∃ ext, h'.propArrs = h.propArrs ++ ext := by
  simp only [clonePS] at hc
  cases harr : h.propArrs.get? T.Properties with
  | none => simp only [harr] at hc; cases hc
  | some arr =>
    simp only [harr] at hc
    cases hcl : clonePList fuel h arr with
    | none => simp only [hcl] at hc; cases hc
    | some res =>
      obtain ⟨h1, arr1⟩ := res
      simp only [hcl, Option.some.injEq, Prod.mk.injEq] at hc
      obtain ⟨hh, -⟩ := hc
      obtain ⟨hs, ext, hext⟩ := clonePList_extends fuel h arr h1 arr1 hcl
      subst hh
      exact ⟨hs, ext ++ [arr1], by simp [hext]⟩

theorem clonePS_read (fuel : Nat) (h : Heap) (T : PropertyStructV) (h' : Heap)
    (T' : PropertyStructV) (t : PropertyStruct)
    (hc : clonePS fuel h T = some (h', T'))
    (hr : readPS fuel h T = some t) : readPS fuel h' T' = some t := by
  simp only [clonePS] at hc
  simp only [readPS] at hr ⊢
  cases harr : h.propArrs.get? T.Properties with
  | none => simp only [harr] at hc; cases hc
  | some arr =>
    simp only [harr] at hc hr
    cases hcl : clonePList fuel h arr with
    | none => simp only [hcl] at hc; cases hc
    | some res =>
      obtain ⟨h1, arr1⟩ := res
      simp only [hcl, Option.some.injEq, Prod.mk.injEq] at hc
      obtain ⟨hh, hT⟩ := hc
      cases hprops : readPList fuel h arr with
      | none => simp only [hprops] at hr; cases hr
      | some props =>
        simp only [hprops] at hr
        have hread1 : readPList fuel h1 arr1 = some props :=
          clonePList_read fuel h arr h1 arr1 props hcl hprops
        have hagree : HeapAgrees h1 h' := by
          subst hh
          exact heapAgrees_of_ext rfl [arr1] rfl
        have hread2 : readPList fuel h' arr1 = some props :=
          readPList_stable fuel h1 h' arr1 props hagree hread1
        have harr' : h'.propArrs.get? T'.Properties = some arr1 := by
          subst hh; subst hT
          exact List.get?_concat_length _ _
        have hname : T'.Name = T.Name ∧ T'.Text = T.Text := by
          subst hT; exact ⟨rfl, rfl⟩
        simp only [harr', hread2, hname.1, hname.2]
        exact hr

theorem clonePS_fresh (fuel : Nat) (h : Heap) (T : PropertyStructV)
    (h' : Heap) (T' : PropertyStructV)
    (hc : clonePS fuel h T = some (h', T')) :
    psAllFresh h.propArrs.length fuel h' T' = true := by
  simp only [clonePS] at hc
  cases harr : h.propArrs.get? T.Properties with
  | none => simp only [harr] at hc; cases hc
  | some arr =>
    simp only [harr] at hc
    cases hcl : clonePList fuel h arr with
    | none => simp only [hcl] at hc; cases hc
    | some res =>
      obtain ⟨h1, arr1⟩ := res
      simp only [hcl, Option.some.injEq, Prod.mk.injEq] at hc
      obtain ⟨hh, hT⟩ := hc
      obtain ⟨hs, ext, hext⟩ := clonePList_extends fuel h arr h1 arr1 hcl
      simp only [psAllFresh, Bool.and_eq_true, decide_eq_true_eq]
      constructor
      · subst hT
        show h.propArrs.length ≤ h1.propArrs.length
        rw [hext]
        simp [Nat.le_add_right]
      · have harr' : h'.propArrs.get? T'.Properties = some arr1 := by
          subst hh; subst hT
          exact List.get?_concat_length _ _
        simp only [harr']
        have hfresh1 : allFreshList h.propArrs.length fuel h1 arr1 = true :=
          clonePList_fresh fuel h arr h1 arr1 hcl
        have hagree : HeapAgrees h1 h' := by
          subst hh
          exact heapAgrees_of_ext rfl [arr1] rfl
        exact allFreshList_stable fuel h.propArrs.length h1 h' arr1
          hagree hfresh1

/-- C3 (amended): `T.Clone()` reads back as exactly the original tree (hence
is `Equal` to it by reflexivity of `Equal`); cloning does not disturb the
original; no string backing array is copied or touched — the clone's
`OtherNames`/`OtherTexts` headers keep their addresses, so that storage stays
shared with T (see the counterexample for the visible effect); every property
backing array reachable from the clone is freshly allocated (at or above the
original heap size), so overwriting any property array outside the original's
range — in particular mutating the clone's `Properties` at any depth — leaves
T's read-back unchanged. -/
theorem clone_spec (fuel : Nat) (hp : Heap) (T : PropertyStructV) (h' : Heap)
    (T' : PropertyStructV) (t : PropertyStruct)
    (hc : clonePS fuel hp T = some (h', T'))
    (hr : readPS fuel hp T = some t) :
    readPS fuel h' T' = some t ∧
    readPS fuel h' T = some t ∧
    h'.strArrs = hp.strArrs ∧
    psAllFresh hp.propArrs.length fuel h' T' = true ∧
    (∀ h'' : Heap, h''.strArrs = h'.strArrs →
      (∀ a, a < hp.propArrs.length →
        h''.propArrs.get? a = h'.propArrs.get? a) →
      readPS fuel h'' T = some t) := by
  obtain ⟨hs, ext, hext⟩ := clonePS_extends fuel hp T h' T' hc
  refine ⟨clonePS_read fuel hp T h' T' t hc hr,
          readPS_stable fuel hp h' T t (heapAgrees_of_ext hs ext hext) hr,
          hs, clonePS_fresh fuel hp T h' T' hc, ?_⟩
  intro h'' h1 h2
  have hag : HeapAgrees hp h'' :=
    ⟨h1.trans hs,
     fun a ha => (h2 a ha).trans ((heapAgrees_of_ext hs ext hext).2 a ha)⟩
  exact readPS_stable fuel hp h'' T t hag hr

/-- Concrete stored property: `OtherNames` and `OtherTexts` both at string
array 0, `Properties` at property array 1 (empty). -/
def cxP0 : PropertyV := ⟨"p", 0, "", "", "", 0, 1, "", false⟩

/-- Concrete heap: one string array `["x"]`; property array 0 is the root's
(holding `cxP0`), array 1 is `cxP0`'s empty children array. -/
def cxHeap : Heap := ⟨[["x"]], [[cxP0], []]⟩

def cxT : PropertyStructV := ⟨"T", "", 0⟩

/-- The clone of `cxP0`: same string-array addresses, fresh children array
at 2. -/
def cxP1 : PropertyV := ⟨"p", 0, "", "", "", 0, 2, "", false⟩

/-- The heap after cloning: the cloned node's children array at 2, the
clone's root array at 3. -/
def cxHeap1 : Heap := ⟨[["x"]], [[cxP0], [], [], [cxP1]]⟩

def cxT1 : PropertyStructV := ⟨"T", "", 3⟩

/-- The pure tree stored at `cxT`, parameterized by the current content of
string array 0. -/
def cxTree (s : String) : PropertyStruct :=
  ⟨"T", "", [.mk "p" [s] "" "" "" [s] [] "" false]⟩

/-- C3 witness: `clone_spec` at the concrete heap — the clone reads back as
the original tree. -/
theorem clone_spec_witness :
    clonePS 3 cxHeap cxT = some (cxHeap1, cxT1) ∧
    readPS 3 cxHeap cxT = some (cxTree "x") ∧
    readPS 3 cxHeap1 cxT1 = some (cxTree "x") :=
  ⟨by simp [clonePS, clonePList, cloneP, cxHeap, cxHeap1, cxT, cxT1, cxP0, cxP1],
   by simp [readPS, readPList, readP, cxHeap, cxT, cxP0, cxTree],
   (clone_spec 3 cxHeap cxT cxHeap1 cxT1 (cxTree "x")
     (by simp [clonePS, clonePList, cloneP, cxHeap, cxHeap1, cxT, cxT1, cxP0, cxP1])
     (by simp [readPS, readPList, readP, cxHeap, cxT, cxP0, cxTree])).1⟩

/-- C3 counterexample: the cloned node keeps the original `OtherNames`
backing address; overwriting `"x"` with `"y"` through the clone's
`OtherNames` storage changes the ORIGINAL tree's read-back from `["x"]` to
`["y"]` — so mutating the clone's `OtherNames` does affect T, refuting
"mutating any part of the clone leaves T unchanged". -/
theorem clone_shares_storage_counterexample :
    clonePS 3 cxHeap cxT = some (cxHeap1, cxT1) ∧
    cxP1.OtherNames = cxP0.OtherNames ∧
    readPS 3 cxHeap cxT = some (cxTree "x") ∧
    readPS 3 (writeStr cxHeap1 cxP1.OtherNames 0 "y") cxT =
      some (cxTree "y") ∧
    cxTree "y" ≠ cxTree "x" := by
  refine ⟨?_, rfl, ?_, ?_, ?_⟩
  · simp [clonePS, clonePList, cloneP, cxHeap, cxHeap1, cxT, cxT1, cxP0, cxP1]
  · simp [readPS, readPList, readP, cxHeap, cxT, cxP0, cxTree]
  · simp [readPS, readPList, readP, writeStr, cxHeap1, cxT, cxP0, cxP1, cxTree]
  · intro hcontra
    simp [cxTree] at hcontra

end Bpdoc
